import Mathlib

/-!
# Cryptopals set 1 (challenges 2, 3, 5, 6): a verification development

Shallow embedding of the Go programs `c2.go`, `c3/testing.go`, `c5.go` and
`c6.go`.

Conventions of the embedding.

* A `byte` is a natural number below 256 and a `[]byte` is a `List Nat`.
  XOR of two bytes never leaves the byte range, so `^` is `Nat.xor`; the
  one place where a byte is incremented (`i++` in the brute-force loop)
  reduces modulo 256 explicitly.
* A Go panic, a `log.Fatal` and a loop that never exits are values of
  `Fault`; code that can end that way returns `Except Fault _`.
* A counted loop `for i := 0; i < n; i++` is a fold over `List.range n`.
  An element read `data[i]` whose index the loop condition keeps in range
  is `List.getD data i 0`; a read that can leave the range is `index`.
-/

namespace Cryptopals

/-! ## Faults -/

/-- The ways in which the programs stop without a result. -/
inductive Fault where
  /-- Go panic: index out of range -/
  | indexOutOfRange
  /-- Go panic: slice bounds out of range -/
  | sliceOutOfRange
  /-- Go panic: integer divide by zero -/
  | divideByZero
  /-- Process exit through `log.Fatal` -/
  | fatal (msg : String)
  /-- A loop whose condition stays true for ever -/
  | diverges
  deriving DecidableEq, Repr

/-- Checked element read `l[i]` of a slice. -/
def index {α : Type} (l : List α) (i : Nat) : Except Fault α :=
  match l[i]? with
  | some v => .ok v
  | none => .error .indexOutOfRange

/-! ## XOR primitives (`c5.go`, `c6.go`, `c3/testing.go`) -/

/-- Go `singleByteXOR` (c6.go 86-94, c3/testing.go 59-67): `res` is allocated
with `len(data)` zero bytes and every position `i` is overwritten with
`data[i] ^ key`. -/
def singleByteXOR (data : List Nat) (key : Nat) : List Nat :=
  (List.range data.length).foldl
    (fun res i => res.set i (data.getD i 0 ^^^ key))
    (List.replicate data.length 0)

/-- Go `multiByteXOR` (c5.go 8-16, c6.go 96-104): position `i` receives
`data[i] ^ key[i%len(key)]`; the remainder panics when the key is empty. -/
def multiByteXOR (data key : List Nat) : Except Fault (List Nat) :=
  (List.range data.length).foldlM
    (fun res i =>
      if key.length = 0 then .error Fault.divideByZero
      else .ok (res.set i (data.getD i 0 ^^^ key.getD (i % key.length) 0)))
    (List.replicate data.length 0)

/-! ## Hamming distance (`c6.go`) -/

/-- Go conversion `[]byte(s)` of a string: its UTF-8 bytes. -/
def stringBytes (s : String) : List Nat :=
  (s.toList.flatMap String.utf8EncodeChar).map UInt8.toNat

/-- Go `strconv.FormatInt(i, base)` for a non-negative `i`: the digits of
`i` in the given base, most significant first, `"0"` for zero. -/
def formatInt (i : Nat) (base : Nat) : String :=
  String.mk (Nat.toDigits base i)

/-- The inner loop of `hammingDistance`: `distance` is incremented once for
every byte of `diff` that is the one-byte string `"1"` (the byte 49). -/
def countOnes (diff : String) (distance : Nat) : Nat :=
  (stringBytes diff).foldl (fun distance b => if b = 49 then distance + 1 else distance) distance

/-- Go `hammingDistance` (c6.go 128-146). Unequal lengths end the process
through `log.Fatal("Requires equal-length strings")`. Otherwise every index
`i` of `s1` adds to `distance` the number of `1` digits of the base-2
rendering of `s1[i] ^ s2[i]`. The Go accumulator is a `float64` that only
ever holds a count reached by steps of one; such counts are exact in
`float64` (below `2^53`), so the accumulator is a natural number here and it
is converted where the caller divides it. -/
def hammingDistance (s1 s2 : List Nat) : Except Fault Nat :=
  if s1.length ≠ s2.length then
    .error (Fault.fatal "Requires equal-length strings")
  else
    .ok ((List.range s1.length).foldl
      (fun distance i => countOnes (formatInt (s1.getD i 0 ^^^ s2.getD i 0) 2) distance)
      0)

/-- Population count of a byte, in the words of the specification: the
number of bit positions `0 .. 7` at which the byte has a one. -/
def popCount (b : Nat) : Nat :=
  (List.range 8).countP (fun j => b.testBit j)

/-- Number of differing bits, in the words of the specification: the number
of pairs (index `i`, bit position `j` in `0 .. 7`) at which the bytes `A[i]`
and `B[i]` have different bits. -/
def differingBits (A B : List Nat) : Nat :=
  ((List.zip A B).map
    (fun ab => (List.range 8).countP (fun j => ab.1.testBit j != ab.2.testBit j))).sum

/-- A byte sequence: every element is below 256. -/
def IsBytes (l : List Nat) : Prop := ∀ b ∈ l, b < 256

/-! ## The Go runtime and library, as far as `c6.go` observes them -/

/-- What `c3/testing.go` and `c6.go` use of `float64`, `math`, `bytes`, map
iteration and `sort`, none of which is code of the repository. `F` stands
for `float64` and the comparisons `<` and `>` of the programs are the order
of `F`, taken to be linear: the programs compare scores and normalized
distances only, and neither is ever NaN (a score divides by `len(data)`
only when `data` has a byte, a distance divides by 6 and by the key size). -/
structure Runtime (F : Type) where
  /-- The zero value of a `float64` variable -/
  zero : F
  /-- Addition of `float64` -/
  add : F → F → F
  /-- Multiplication of `float64` -/
  mul : F → F → F
  /-- Division of `float64` -/
  div : F → F → F
  /-- Go `math.Sqrt` -/
  sqrt : F → F
  /-- The conversion `float64(n)` of a non-negative integer -/
  ofInt : Nat → F
  /-- The constant written `m` times ten to the power `-e`, as a `float64` -/
  decimal : Nat → Nat → F
  /-- Go `bytes.ToLower` -/
  toLower : List Nat → List Nat
  /-- The order in which `range` visits the entries of a map holding the
  given entries. Go leaves the order unspecified; here it depends on the
  entries only -/
  mapRange : List (Nat × Nat) → List (Nat × Nat)
  /-- Go `sort.Sort` on a slice whose `Less(i, j)` compares the elements at
  `i` and `j` with the given function and whose `Swap` exchanges them -/
  sortSort : {α : Type} → (α → α → Bool) → List α → List α

/-- What the documentation of `sort.Sort` promises for one `Less`: the
result is a rearrangement of the input in which no element is `Less` than
an element before it. The documentation adds that the sort is not
guaranteed to be stable. -/
def SortsBy {α : Type} (less : α → α → Bool) (sort : List α → List α) : Prop :=
  ∀ l, (sort l).Perm l ∧ (sort l).Pairwise (fun a b => less b a = false)

/-- The entries of `FrequencyTable`, in units of `10^-7`. -/
def frequencyEntries : List (Char × Nat) :=
  [('a', 651738), ('b', 124248), ('c', 217339), ('d', 349835), ('e', 1041442), ('f', 197881),
   ('g', 158610), ('h', 492888), ('i', 558094), ('j', 9033), ('k', 50529), ('l', 331490),
   ('m', 202124), ('n', 564513), ('o', 596302), ('p', 137645), ('q', 8606), ('r', 497563),
   ('s', 515760), ('t', 729357), ('u', 225134), ('v', 82903), ('w', 171272), ('x', 13692),
   ('y', 145984), ('z', 7836), (' ', 1918182)]

/-- Go `FrequencyTable[b]`: the entry of the byte, the zero value for a byte
that is no key of the map. -/
def FrequencyTable {F : Type} (rt : Runtime F) (b : Nat) : F :=
  match frequencyEntries.find? (fun e => e.1.toNat = b) with
  | some e => rt.decimal e.2 7
  | none => rt.zero

/-- Go `res[v]` on a `map[byte]int`: the zero value for a missing key. -/
def mapGet (res : List (Nat × Nat)) (v : Nat) : Nat :=
  match res.find? (fun e => e.1 = v) with
  | some e => e.2
  | none => 0

/-- Go `res[v] = c` on a `map[byte]int`. -/
def mapSet (res : List (Nat × Nat)) (v c : Nat) : List (Nat × Nat) :=
  if res.any (fun e => e.1 = v) then res.map (fun e => if e.1 = v then (v, c) else e)
  else res ++ [(v, c)]

/-- Go `countBytes` (c6.go 60-70): the number of occurrences of every byte
of `data`, as the entries of the map it returns. -/
def countBytes (data : List Nat) : List (Nat × Nat) :=
  data.foldl
    (fun res v => if mapGet res v ≠ 0 then mapSet res v (mapGet res v + 1) else mapSet res v 1)
    []

/-- Go `getEnglishScore` (c6.go 72-84): `totalChars` is the length of the
argument, the counts are those of the lower-cased argument, and every entry
`(b, c)` of the counts adds `sqrt(FrequencyTable[b] * c / totalChars)`. -/
def getEnglishScore {F : Type} (rt : Runtime F) (data : List Nat) : F :=
  let totalChars := data.length
  let data := rt.toLower data
  let counts := countBytes data
  (rt.mapRange counts).foldl
    (fun score bc =>
      rt.add score
        (rt.sqrt (rt.div (rt.mul (FrequencyTable rt bc.1) (rt.ofInt bc.2)) (rt.ofInt totalChars))))
    rt.zero

/-! ## Single-byte brute force (`c6.go` 106-126) -/

/-- Go `Result`. -/
structure Result (F : Type) where
  /-- The key attempted -/
  Key : Nat
  /-- The score of the plaintext -/
  Score : F
  /-- The data XORed with the key -/
  Plaintext : List Nat

/-- Go `ScoreSorter.Less`: `a[i].Score > a[j].Score`. -/
def ScoreSorter.Less {F : Type} [LinearOrder F] (a b : Result F) : Bool :=
  decide (a.Score > b.Score)

/-- The iteration of the brute-force loop for the key `i`: the `Result`
appended to `results`. -/
def bruteForceResult {F : Type} (rt : Runtime F) (data : List Nat) (i : Nat) : Result F :=
  let plaintextCandidate := singleByteXOR data i
  let candidateScore := getEnglishScore rt plaintextCandidate
  { Key := i, Score := candidateScore, Plaintext := plaintextCandidate }

/-- The loop `for i := byte(0); ; i++` of `singleByteXORBruteForce`, from
the counter value `i` on: it appends the result for `i`, leaves when
`i == 255` and otherwise goes on with `i + 1` reduced to a byte. -/
def bruteForceLoop {F : Type} (rt : Runtime F) (data : List Nat) (i : Nat)
    (results : List (Result F)) : List (Result F) :=
  if i = 255 then results ++ [bruteForceResult rt data i]
  else bruteForceLoop rt data ((i + 1) % 256) (results ++ [bruteForceResult rt data i])
termination_by (if i < 256 then 255 - i else 256)
decreasing_by
  simp_wf
  split <;> split <;> omega

/-- Go `singleByteXORBruteForce` (c6.go 106-126): the key of the first
result after sorting, `results[0]` being a checked read. -/
def singleByteXORBruteForce {F : Type} [LinearOrder F] (rt : Runtime F) (data : List Nat) :
    Except Fault Nat := do
  let results := bruteForceLoop rt data 0 []
  let results := rt.sortSort ScoreSorter.Less results
  let first ← index results 0
  pure first.Key

/-- Go `PlaintextResult`. -/
structure PlaintextResult (F : Type) where
  /-- The candidate key -/
  Key : List Nat
  /-- The score of the plaintext -/
  Score : F
  /-- The data decrypted with the key -/
  Plaintext : List Nat

/-- Go `keySizeDistance`. -/
structure keySizeDistance (F : Type) where
  /-- The candidate key size -/
  KeySize : Nat
  /-- The normalized distance -/
  Distance : F

/-- Go `PTScoreSorter.Less`: `a[i].Score > a[j].Score`. -/
def PTScoreSorter.Less {F : Type} [LinearOrder F] (a b : PlaintextResult F) : Bool :=
  decide (a.Score > b.Score)

/-- Go `distanceSorter.Less`: `a[i].Distance < a[j].Distance`. -/
def distanceSorter.Less {F : Type} [LinearOrder F] (a b : keySizeDistance F) : Bool :=
  decide (a.Distance < b.Distance)

/-- Go slice expression `data[lo:hi]` on a slice: `data` holds the `len(data)`
elements of the slice and `spare` the elements of its backing array between
its length and its capacity. The bounds are checked against the capacity. -/
def subslice (data spare : List Nat) (lo hi : Nat) : Except Fault (List Nat) :=
  if lo ≤ hi ∧ hi ≤ data.length + spare.length then
    .ok (((data ++ spare).drop lo).take (hi - lo))
  else .error Fault.sliceOutOfRange

/-- The chunking loop of `breakRepeatingKeyXOR` (c6.go 158-165), from the
offset `i` and chunk counter `c` on: while `i <= len(data)` it stores
`data[i : i+keySize]` in `chunks[c]` (a checked write), and it leaves once
four chunks are stored. -/
def chunkLoop (data spare : List Nat) (keySize i c : Nat) (chunks : List (List Nat)) :
    Except Fault (List (List Nat)) :=
  if i ≤ data.length then
    if c < chunks.length then
      match subslice data spare i (i + keySize) with
      | .error e => .error e
      | .ok chunk =>
        if c + 1 = 4 then .ok (chunks.set c chunk)
        else chunkLoop data spare keySize (i + keySize) (c + 1) (chunks.set c chunk)
    else .error Fault.indexOutOfRange
  else .ok chunks
termination_by chunks.length - c
decreasing_by
  simp_wf
  omega

/-- The body of the key-size loop up to the sum of the six distances (c6.go
156-174): the four chunks start as nil slices. -/
def sampleDistance (data spare : List Nat) (keySize : Nat) : Except Fault Nat := do
  let chunks ← chunkLoop data spare keySize 0 0 (List.replicate 4 [])
  let d01 ← hammingDistance (chunks.getD 0 []) (chunks.getD 1 [])
  let d02 ← hammingDistance (chunks.getD 0 []) (chunks.getD 2 [])
  let d03 ← hammingDistance (chunks.getD 0 []) (chunks.getD 3 [])
  let d12 ← hammingDistance (chunks.getD 1 []) (chunks.getD 2 [])
  let d13 ← hammingDistance (chunks.getD 1 []) (chunks.getD 3 [])
  let d23 ← hammingDistance (chunks.getD 2 []) (chunks.getD 3 [])
  pure (0 + d01 + d02 + d03 + d12 + d13 + d23)

/-- The body of the key-size loop (c6.go 154-182): the estimate appended for
`keySize`, the sum of the distances divided by `float64(6)` and then by
`float64(keySize)`. -/
def keySizeEstimate {F : Type} (rt : Runtime F) (data spare : List Nat) (keySize : Nat) :
    Except Fault (keySizeDistance F) := do
  let distance ← sampleDistance data spare keySize
  let distance := rt.div (rt.ofInt distance) (rt.ofInt 6)
  let normalizedDistance := rt.div distance (rt.ofInt keySize)
  pure { KeySize := keySize, Distance := normalizedDistance }

/-- The key-size loop of `breakRepeatingKeyXOR` over the given key sizes: a
fault in one iteration ends the run, otherwise the estimate of the
iteration is appended to `normalizedDistances`. -/
def estimateLoop {F : Type} (rt : Runtime F) (data spare : List Nat) (keySizes : List Nat)
    (normalizedDistances : List (keySizeDistance F)) : Except Fault (List (keySizeDistance F)) :=
  keySizes.foldlM
    (fun nds keySize => do
      let e ← keySizeEstimate rt data spare keySize
      pure (nds ++ [e]))
    normalizedDistances

/-- The key-size loop `for keySize := 2; keySize <= 42; keySize++`. -/
def normalizedDistances {F : Type} (rt : Runtime F) (data spare : List Nat) :
    Except Fault (List (keySizeDistance F)) :=
  estimateLoop rt data spare (List.range' 2 41) []

/-- The transposition loop `for j := i; j < len(data); j += keySize` (c6.go
202-204), from the index `j` on. With a key size of zero the index never
advances and the loop never exits. -/
def transposeLoop (data : List Nat) (keySize j : Nat) (block : List Nat) :
    Except Fault (List Nat) :=
  if h : j < data.length then
    if keySize = 0 then .error Fault.diverges
    else transposeLoop data keySize (j + keySize) (block ++ [data[j]])
  else .ok block
termination_by data.length - j
decreasing_by
  simp_wf
  omega

/-- The loop over the columns `i` in `0 .. keySize-1` (c6.go 198-207): the
key assembled from the brute-forced key byte of every transposed block. -/
def candidateKey {F : Type} [LinearOrder F] (rt : Runtime F) (data : List Nat) (keySize : Nat) :
    Except Fault (List Nat) :=
  (List.range keySize).foldlM
    (fun key i => do
      let block ← transposeLoop data keySize i []
      let k ← singleByteXORBruteForce rt block
      pure (key ++ [k]))
    []

/-- The body of the loop over the possible key sizes (c6.go 194-214). -/
def candidateResult {F : Type} [LinearOrder F] (rt : Runtime F) (data : List Nat)
    (keySize : Nat) : Except Fault (PlaintextResult F) := do
  let key ← candidateKey rt data keySize
  let plaintext ← multiByteXOR data key
  pure { Key := key, Score := getEnglishScore rt plaintext, Plaintext := plaintext }

/-- Go `breakRepeatingKeyXOR` (c6.go 148-221) on the slice `data` whose
backing array goes on with `spare`: the result whose key, score and
plaintext are printed. `normalizedDistances[0:3]` is a checked slice
expression (the slice holds 41 estimates whenever the key-size loop ends
without a fault) and `plaintextResults[0]` a checked read. -/
def breakRepeatingKeyXOR {F : Type} [LinearOrder F] (rt : Runtime F) (data spare : List Nat) :
    Except Fault (PlaintextResult F) := do
  let nds ← normalizedDistances rt data spare
  let nds := rt.sortSort distanceSorter.Less nds
  if nds.length < 3 then throw Fault.sliceOutOfRange
  let possibleKeySizes := (nds.take 3).map (fun v => v.KeySize)
  let plaintextResults ← possibleKeySizes.foldlM
    (fun results keySize => do
      let r ← candidateResult rt data keySize
      pure (results ++ [r]))
    []
  let plaintextResults := rt.sortSort PTScoreSorter.Less plaintextResults
  index plaintextResults 0

/-- The iterations of the brute-force loop from the counter value `i` on:
the counter values at which the loop body runs, in order. The counter is
incremented as a byte, so a wrap-around would show as a value followed by a
smaller one. -/
def bruteForceCounters (i : Nat) : List Nat :=
  if i = 255 then [i] else i :: bruteForceCounters ((i + 1) % 256)
termination_by (if i < 256 then 255 - i else 256)
decreasing_by
  simp_wf
  split <;> split <;> omega

/-- The selection of the key sizes in `breakRepeatingKeyXOR` (c6.go 153-189):
the key sizes of `normalizedDistances[0:3]` after sorting. -/
def possibleKeySizes {F : Type} [LinearOrder F] (rt : Runtime F) (data spare : List Nat) :
    Except Fault (List Nat) := do
  let nds ← normalizedDistances rt data spare
  let nds := rt.sortSort distanceSorter.Less nds
  if nds.length < 3 then throw Fault.sliceOutOfRange
  pure ((nds.take 3).map (fun v => v.KeySize))

/-- The loop over the possible key sizes in `breakRepeatingKeyXOR` (c6.go
191-214): the candidate results, in the order in which they are built. -/
def plaintextResults {F : Type} [LinearOrder F] (rt : Runtime F) (data : List Nat)
    (keySizes : List Nat) : Except Fault (List (PlaintextResult F)) :=
  keySizes.foldlM
    (fun results keySize => do
      let r ← candidateResult rt data keySize
      pure (results ++ [r]))
    []

/-- One iteration of the loop over the columns (c6.go 198-207): the key byte
appended for the column `i`, the result of `singleByteXORBruteForce` on the
transposed block. -/
def columnKey {F : Type} [LinearOrder F] (rt : Runtime F) (data : List Nat) (keySize i : Nat) :
    Except Fault Nat :=
  transposeLoop data keySize i [] >>= fun block => singleByteXORBruteForce rt block

/-- What `sort.Sort` does with a short slice in the releases of Go: a slice
of at most `n` elements is sorted by insertion sort, which keeps two
elements in their order unless the later is `Less` than the earlier. The
documentation of `sort.Sort` does not promise it. -/
def StableUpTo {α : Type} (n : Nat) (less : α → α → Bool) (sort : List α → List α) : Prop :=
  ∀ l, l.length ≤ n → ∀ a b, List.Sublist [a, b] l → less b a = false →
    List.Sublist [a, b] (sort l)

/-- Whether a byte is a key of `FrequencyTable`. -/
def isTableByte (b : Nat) : Bool :=
  (frequencyEntries.find? (fun e => e.1.toNat = b)).isSome

/-- The term that `getEnglishScore` adds for the entry `(b, c)` of the
counts: `sqrt(FrequencyTable[b] * c / totalChars)`. -/
def scoreTerm {F : Type} (rt : Runtime F) (totalChars : Nat) (bc : Nat × Nat) : F :=
  rt.sqrt (rt.div (rt.mul (FrequencyTable rt bc.1) (rt.ofInt bc.2)) (rt.ofInt totalChars))

/-- The divisions that `getEnglishScore` performs, in order, each as the
pair of its dividend and its divisor: one per entry of the counts that the
loop visits, the divisor being `float64(totalChars)`. -/
def scoreDivisions {F : Type} (rt : Runtime F) (data : List Nat) : List (F × F) :=
  (rt.mapRange (countBytes (rt.toLower data))).map
    (fun bc => (rt.mul (FrequencyTable rt bc.1) (rt.ofInt bc.2), rt.ofInt data.length))

/-- The entries of the counts of the lower-cased data whose byte is a key of
`FrequencyTable`, in the order in which the loop visits them. -/
def tableEntries {F : Type} (rt : Runtime F) (data : List Nat) : List (Nat × Nat) :=
  (rt.mapRange (countBytes (rt.toLower data))).filter (fun bc => isTableByte bc.1)

/-- The score in the words of the specification: the sum, over the table
bytes present in the lower-cased data, of
`sqrt(FrequencyTable[b] * count[b] / len(data))`. -/
def tableScore {F : Type} (rt : Runtime F) (data : List Nat) : F :=
  (tableEntries rt data).foldl (fun score bc => rt.add score (scoreTerm rt data.length bc))
    rt.zero

/-- The facts about `float64`, `bytes.ToLower` and map iteration that the
scoring of bytes without a table entry relies on: `0 * float64(c)`,
`0 / float64(n)` for a positive `n` and `math.Sqrt(0)` are `0`, adding `0`
changes nothing, lower-casing nothing gives nothing, and a `range` over a
map visits every entry once. -/
structure ScoringLaws {F : Type} (rt : Runtime F) : Prop where
  /-- `0 * float64(c) = 0` -/
  mul_zero : ∀ c, rt.mul rt.zero (rt.ofInt c) = rt.zero
  /-- `0 / float64(n) = 0` for a positive `n` -/
  div_zero : ∀ n, 0 < n → rt.div rt.zero (rt.ofInt n) = rt.zero
  /-- `math.Sqrt(0) = 0` -/
  sqrt_zero : rt.sqrt rt.zero = rt.zero
  /-- `x + 0 = x` -/
  add_zero : ∀ x, rt.add x rt.zero = x
  /-- `bytes.ToLower` of the empty slice is empty -/
  toLower_nil : rt.toLower [] = []
  /-- `range` visits every entry of a map once -/
  mapRange_perm : ∀ m, (rt.mapRange m).Perm m

/-- The invariant of the loop of `countBytes` after the bytes `pre`: the
keys are distinct, every entry is a byte of `pre` with its number of
occurrences, and every byte of `pre` has an entry. -/
def CountInv (res : List (Nat × Nat)) (pre : List Nat) : Prop :=
  (res.map Prod.fst).Nodup
    ∧ (∀ e ∈ res, e.1 ∈ pre ∧ e.2 = pre.count e.1)
    ∧ (∀ b ∈ pre, ∃ e ∈ res, e.1 = b)

/-- A ciphertext of 168 zero bytes. -/
def zeros168 : List Nat := List.replicate 168 0

/-! ## Two instances of the runtime -/

/-- Lower-casing of ASCII letters, the effect of `bytes.ToLower` on ASCII. -/
def asciiToLower (data : List Nat) : List Nat :=
  data.map (fun b => if 65 ≤ b ∧ b ≤ 90 then b + 32 else b)

/-- A stable sort for `Less`: insertion sort by "the second is not `Less`
than the first". -/
def stableSort {α : Type} (less : α → α → Bool) (l : List α) : List α :=
  l.insertionSort (fun a b => less b a = false)

/-- A runtime with integer arithmetic in place of `float64` (scores in whole
units, integer square root), ASCII lower-casing, maps visited in insertion
order and a stable sort. -/
def stableRuntime : Runtime Nat where
  zero := 0
  add := Nat.add
  mul := Nat.mul
  div := Nat.div
  sqrt := Nat.sqrt
  ofInt := id
  decimal := fun m _ => m
  toLower := asciiToLower
  mapRange := id
  sortSort := fun less l => stableSort less l

/-- Digit table of `hex.EncodeToString`. -/
def hextable : List Char := "0123456789abcdef".toList

/-- Go `hex.EncodeToString`: two lower-case digits per byte, high nibble first. -/
def hexEncodeToString (src : List Nat) : String :=
  String.mk (src.flatMap fun v => [hextable.getD (v / 16) '0', hextable.getD (v % 16) '0'])

/-- Value of one hexadecimal digit, as in `hex.DecodeString`. -/
def fromHexChar (c : Char) : Option Nat :=
  if '0' ≤ c ∧ c ≤ '9' then some (c.toNat - '0'.toNat)
  else if 'a' ≤ c ∧ c ≤ 'f' then some (c.toNat - 'a'.toNat + 10)
  else if 'A' ≤ c ∧ c ≤ 'F' then some (c.toNat - 'A'.toNat + 10)
  else none

/-- Pairwise decoding of hexadecimal digits; `none` on an invalid digit or
an odd number of digits. -/
def hexDecodeChars : List Char → Option (List Nat)
  | [] => some []
  | [_] => none
  | a :: b :: rest =>
    match fromHexChar a, fromHexChar b, hexDecodeChars rest with
    | some x, some y, some r => some ((x * 16 + y) :: r)
    | _, _, _ => none

/-- Go `hex.DecodeString` followed by `log.Fatal(err)` on an error. -/
def hexDecodeString (s : String) : Except Fault (List Nat) :=
  match hexDecodeChars s.toList with
  | some bs => .ok bs
  | none => .error (Fault.fatal "encoding/hex")

/-! ## Challenge 5 (`c5.go`) -/

namespace C5

/-- The literal `input` of `main`. -/
def input : String :=
  "Burning 'em, if you ain't quick and nimble\nI go crazy when I hear a cymbal"

/-- The literal `key` of `main`. -/
def key : String := "ICE"

/-- The literal `expected` of `main`. -/
def expected : String :=
  "0b3637272a2b2e63622c2e69692a23693a2a3c6324202d623d63343c2a26226324272765272a282b2f20430a652e2c652a3124333a653e2b2027630c692b20283165286326302e27282f"

/-- Go `main` of c5.go: the lines printed (`"Working!"` when the encoding of
the ciphertext equals `expected`, nothing otherwise). -/
def main : Except Fault (List String) := do
  let res := hexEncodeToString (← multiByteXOR (stringBytes input) (stringBytes key))
  if res = expected then pure ["Working!"] else pure []

end C5

/-! ## Challenge 2 (`c2.go`) -/

namespace C2

/-- The loop of `main` in c2.go: for every index `i` and byte `v` of `data`,
in order, `v ^ key[i]` is appended to `output`; `key[i]` is a checked read. -/
def fixedXOR (data key : List Nat) : Except Fault (List Nat) :=
  data.enum.foldlM
    (fun output (iv : Nat × Nat) => do
      let k ← index key iv.1
      pure (output ++ [iv.2 ^^^ k]))
    []

/-- Go `main` of c2.go with its two literals as parameters: the line printed. -/
def mainWith (dataHex keyHex : String) : Except Fault String := do
  let data ← hexDecodeString dataHex
  let key ← hexDecodeString keyHex
  let output ← fixedXOR data key
  pure (hexEncodeToString output)

/-- Go `main` of c2.go. -/
def main : Except Fault String :=
  mainWith "1c0111001f010100061a024b53535009181c" "686974207468652062756c6c277320657965"

end C2

end Cryptopals

/-! # Theorems -/

namespace Cryptopals


/-! ## Counted loops that fill a slice -/

/-- Overwriting the positions `0 .. m-1` of `res` in turn leaves the values
written, followed by the untouched tail of `res`. -/
theorem foldl_set_range {α : Type} (f : Nat → α) :
    ∀ (m : Nat) (res : List α), m ≤ res.length →
      (List.range m).foldl (fun r i => r.set i (f i)) res
        = (List.range m).map f ++ res.drop m := by
  intro m
  induction m with
  | zero => intro res _; simp
  | succ m ih =>
    intro res h
    have hm : m < res.length := h
    rw [List.range_succ, List.foldl_append, ih res (Nat.le_of_lt hm)]
    simp only [List.foldl_cons, List.foldl_nil, List.map_append, List.map_cons, List.map_nil,
      List.append_assoc, List.singleton_append]
    rw [List.set_append_right _ _ (by simp)]
    simp only [List.length_map, List.length_range, Nat.sub_self]
    rw [List.drop_eq_getElem_cons hm, List.set_cons_zero]

/-- A loop that writes `f i` at every position of a fresh slice of length
`n` produces the list of the values `f 0, ..., f (n-1)`. -/
theorem foldl_set_replicate {α : Type} (f : Nat → α) (n : Nat) (z : α) :
    (List.range n).foldl (fun r i => r.set i (f i)) (List.replicate n z)
      = (List.range n).map f := by
  rw [foldl_set_range f n _ (by simp)]
  simp

/-- A fallible fold whose body never fails is the pure fold. -/
theorem foldlM_ok {α β : Type} (g : β → α → β) (body : β → α → Except Fault β) :
    ∀ (l : List α) (init : β), (∀ b a, a ∈ l → body b a = .ok (g b a)) →
      l.foldlM body init = .ok (l.foldl g init) := by
  intro l
  induction l with
  | nil => intro init _; rfl
  | cons a l ih =>
    intro init h
    rw [List.foldlM_cons, h init a (List.mem_cons_self a l)]
    exact ih (g init a) (fun b x hx => h b x (List.mem_cons_of_mem a hx))

/-- Closed form of `singleByteXOR`: every byte is XORed with the key. -/
theorem singleByteXOR_eq_map (data : List Nat) (key : Nat) :
    singleByteXOR data key = data.map (fun d => d ^^^ key) := by
  unfold singleByteXOR
  rw [foldl_set_replicate (fun i => data.getD i 0 ^^^ key)]
  apply List.ext_getElem
  · simp
  · intro i h1 h2
    simp at h1
    simp [List.getD_eq_getElem?_getD, List.getElem?_eq_getElem h1]

/-- Closed form of `multiByteXOR` for a non-empty key. -/
theorem multiByteXOR_eq_map (data key : List Nat) (hk : key ≠ []) :
    multiByteXOR data key
      = .ok ((List.range data.length).map
          (fun i => data.getD i 0 ^^^ key.getD (i % key.length) 0)) := by
  have hlen : key.length ≠ 0 := by
    intro h; exact hk (List.length_eq_zero.mp h)
  unfold multiByteXOR
  rw [foldlM_ok (fun res i => res.set i (data.getD i 0 ^^^ key.getD (i % key.length) 0))]
  · rw [foldl_set_replicate (fun i => data.getD i 0 ^^^ key.getD (i % key.length) 0)]
  · intro b a _
    simp [hlen]

/-- The result of `multiByteXOR` has the length of the data. -/
theorem multiByteXOR_length (data key r : List Nat) (h : multiByteXOR data key = .ok r) :
    r.length = data.length := by
  by_cases hk : key = []
  · subst hk
    cases data with
    | nil =>
      simp [multiByteXOR] at h
      cases h
      rfl
    | cons d ds =>
      exfalso
      simp [multiByteXOR, List.range_succ_eq_map, List.foldlM_cons, bind, Except.bind] at h
  · rw [multiByteXOR_eq_map data key hk] at h
    cases h
    simp

/-- C1. For every byte sequence `D` and every non-empty key `K`, encrypting
`D` with `multiByteXOR` under `K` succeeds, and encrypting the result again
under `K` succeeds and gives back `D`. -/
theorem multiByteXOR_involution (D K : List Nat) (hK : K ≠ []) :
    (multiByteXOR D K >>= fun E => multiByteXOR E K) = .ok D := by
  rw [multiByteXOR_eq_map D K hK]
  show multiByteXOR _ K = .ok D
  rw [multiByteXOR_eq_map _ K hK]
  congr 1
  apply List.ext_getElem
  · simp
  · intro i h1 h2
    simp at h1
    simp only [List.length_map, List.length_range, List.getElem_map, List.getElem_range,
      List.getD_eq_getElem?_getD]
    rw [List.getElem?_eq_getElem (by simpa using h1)]
    simp only [List.getElem_map, List.getElem_range, Option.getD_some]
    rw [List.getElem?_eq_getElem h1]
    simp [Nat.xor_cancel_right]

/-- Witness of C1 on the data `[1, 2, 3, 4]` and the key `[7, 9]`. -/
theorem multiByteXOR_involution_witness :
    ([7, 9] : List Nat) ≠ [] ∧
      (multiByteXOR [1, 2, 3, 4] [7, 9] >>= fun E => multiByteXOR E [7, 9]) = .ok [1, 2, 3, 4] :=
  ⟨by decide, multiByteXOR_involution [1, 2, 3, 4] [7, 9] (by decide)⟩

set_option maxRecDepth 100000 in
/-- C2. `multiByteXOR` applied to the bytes of the challenge-5 text with the
key bytes `"ICE"` succeeds, the hexadecimal encoding of its result is the
expected literal `0b3637...282f`, its result is the byte sequence that
literal decodes to, and `main` of c5.go prints `"Working!"`. -/
theorem c5_ice_vector :
    (multiByteXOR
        (stringBytes "Burning 'em, if you ain't quick and nimble\nI go crazy when I hear a cymbal")
        (stringBytes "ICE")).map hexEncodeToString
      = .ok "0b3637272a2b2e63622c2e69692a23693a2a3c6324202d623d63343c2a26226324272765272a282b2f20430a652e2c652a3124333a653e2b2027630c692b20283165286326302e27282f"
    ∧ multiByteXOR
        (stringBytes "Burning 'em, if you ain't quick and nimble\nI go crazy when I hear a cymbal")
        (stringBytes "ICE")
      = hexDecodeString "0b3637272a2b2e63622c2e69692a23693a2a3c6324202d623d63343c2a26226324272765272a282b2f20430a652e2c652a3124333a653e2b2027630c692b20283165286326302e27282f"
    ∧ C5.main = .ok ["Working!"] := by
  refine ⟨?_, ?_, ?_⟩ <;> rfl

/-- C3. For every byte `k` and every byte sequence `D`,
`singleByteXOR (singleByteXOR D k) k = D`. -/
theorem singleByteXOR_involution (D : List Nat) (k : Nat) :
    singleByteXOR (singleByteXOR D k) k = D := by
  rw [singleByteXOR_eq_map, singleByteXOR_eq_map, List.map_map]
  conv => rhs; rw [← List.map_id D]
  apply List.map_congr_left
  intro a _
  simp [Nat.xor_cancel_right]

set_option maxRecDepth 100000 in
/-- C7. The challenge-2 fixed XOR of the bytes with hex
`1c0111001f010100061a024b53535009181c` and the bytes with hex
`686974207468652062756c6c277320657965` succeeds and gives the bytes with
hex `746865206b696420646f6e277420706c6179`, which is the line that `main`
of c2.go prints. -/
theorem c2_fixed_xor_vector :
    (do let data ← hexDecodeString "1c0111001f010100061a024b53535009181c"
        let key ← hexDecodeString "686974207468652062756c6c277320657965"
        C2.fixedXOR data key)
      = hexDecodeString "746865206b696420646f6e277420706c6179"
    ∧ hexDecodeString "746865206b696420646f6e277420706c6179"
      = .ok [0x74, 0x68, 0x65, 0x20, 0x6b, 0x69, 0x64, 0x20, 0x64, 0x6f, 0x6e, 0x27, 0x74, 0x20,
          0x70, 0x6c, 0x61, 0x79]
    ∧ C2.main = .ok "746865206b696420646f6e277420706c6179" := by
  refine ⟨?_, ?_, ?_⟩ <;> rfl

/-! ## Hamming distance -/

/-- The inner loop adds to the accumulator the count it reaches from zero. -/
theorem countOnes_add (diff : String) (distance : Nat) :
    countOnes diff distance = distance + countOnes diff 0 := by
  unfold countOnes
  generalize stringBytes diff = bs
  induction bs generalizing distance with
  | nil => simp
  | cons b bs ih =>
    simp only [List.foldl_cons]
    rw [ih, ih (if b = 49 then 0 + 1 else 0)]
    split <;> omega

/-- Closed form of the outer loop of `hammingDistance`. -/
theorem foldl_countOnes (c : Nat → String) :
    ∀ (n d : Nat), (List.range n).foldl (fun distance i => countOnes (c i) distance) d
      = d + ((List.range n).map (fun i => countOnes (c i) 0)).sum := by
  intro n
  induction n with
  | zero => intro d; simp
  | succ n ih =>
    intro d
    rw [List.range_succ, List.foldl_append, ih]
    simp only [List.foldl_cons, List.foldl_nil, List.map_append, List.map_cons, List.map_nil,
      List.sum_append, List.sum_cons, List.sum_nil]
    rw [countOnes_add]
    omega

/-- Closed form of `hammingDistance` on arguments of equal length. -/
theorem hammingDistance_eq (s1 s2 : List Nat) (h : s1.length = s2.length) :
    hammingDistance s1 s2
      = .ok ((List.range s1.length).map
          (fun i => countOnes (formatInt (s1.getD i 0 ^^^ s2.getD i 0) 2) 0)).sum := by
  unfold hammingDistance
  rw [if_neg (by simpa using h), foldl_countOnes (fun i => formatInt (s1.getD i 0 ^^^ s2.getD i 0) 2)]
  simp

set_option maxRecDepth 100000 in
/-- For every byte value, the number of `1` characters of the base-2
rendering is the population count. -/
theorem countOnes_formatInt_eq_popCount :
    ∀ x < 256, countOnes (formatInt x 2) 0 = popCount x := by
  decide

/-- Reading two lists of equal length by index is reading their zip. -/
theorem map_range_getD_eq_map_zip {γ : Type} (g : Nat → Nat → γ) (A B : List Nat)
    (h : A.length = B.length) :
    (List.range A.length).map (fun i => g (A.getD i 0) (B.getD i 0))
      = (List.zip A B).map (fun ab => g ab.1 ab.2) := by
  apply List.ext_getElem
  · simp [h]
  · intro i h1 h2
    simp at h1
    have hB : i < B.length := h ▸ h1
    simp [List.getD_eq_getElem?_getD, List.getElem?_eq_getElem h1, List.getElem?_eq_getElem hB]

/-- The population count of an XOR counts the positions where the bits differ. -/
theorem popCount_xor (a b : Nat) :
    popCount (a ^^^ b) = (List.range 8).countP (fun j => a.testBit j != b.testBit j) := by
  unfold popCount
  congr 1
  funext j
  rw [Nat.testBit_xor]

/-- C4. For all byte sequences `A` and `B` of equal length,
`hammingDistance A B = hammingDistance B A`, and `hammingDistance A A` is
the distance `0`. -/
theorem hammingDistance_symm_and_self (A B : List Nat) (h : A.length = B.length) :
    hammingDistance A B = hammingDistance B A ∧ hammingDistance A A = .ok 0 := by
  constructor
  · rw [hammingDistance_eq A B h, hammingDistance_eq B A h.symm, h]
    congr 2
    apply List.map_congr_left
    intro i _
    rw [Nat.xor_comm]
  · rw [hammingDistance_eq A A rfl]
    congr 1
    apply List.sum_eq_zero
    intro x hx
    simp only [Nat.xor_self, List.mem_map] at hx
    obtain ⟨_, _, rfl⟩ := hx
    rfl

/-- Witness of C4 on `"this is a test"` and `"wokka wokka!!!"`. -/
theorem hammingDistance_symm_and_self_witness :
    (stringBytes "this is a test").length = (stringBytes "wokka wokka!!!").length ∧
      (hammingDistance (stringBytes "this is a test") (stringBytes "wokka wokka!!!")
          = hammingDistance (stringBytes "wokka wokka!!!") (stringBytes "this is a test") ∧
        hammingDistance (stringBytes "this is a test") (stringBytes "this is a test") = .ok 0) :=
  ⟨by decide,
    hammingDistance_symm_and_self (stringBytes "this is a test") (stringBytes "wokka wokka!!!")
      (by decide)⟩

/-- C5. For all byte sequences `A` and `B` of equal length,
`hammingDistance A B` returns the number of bit positions in which `A` and
`B` differ, which is the sum over the indices `i` of the population count of
`A[i] XOR B[i]`; and for every byte value `0 .. 255` the number of `1`
characters in its base-2 rendering is its population count. -/
theorem hammingDistance_eq_differingBits (A B : List Nat) (h : A.length = B.length)
    (hA : IsBytes A) (hB : IsBytes B) :
    hammingDistance A B = .ok (differingBits A B)
      ∧ differingBits A B = ((List.zip A B).map (fun ab => popCount (ab.1 ^^^ ab.2))).sum
      ∧ ∀ x < 256, countOnes (formatInt x 2) 0 = popCount x := by
  have hdiff : differingBits A B
      = ((List.zip A B).map (fun ab => popCount (ab.1 ^^^ ab.2))).sum := by
    unfold differingBits
    congr 1
    apply List.map_congr_left
    intro ab _
    rw [popCount_xor]
  refine ⟨?_, hdiff, countOnes_formatInt_eq_popCount⟩
  rw [hammingDistance_eq A B h, hdiff,
    ← map_range_getD_eq_map_zip (fun a b => popCount (a ^^^ b)) A B h]
  congr 2
  apply List.map_congr_left
  intro i hi
  have hi1 : i < A.length := by simpa using hi
  have hi2 : i < B.length := h ▸ hi1
  apply countOnes_formatInt_eq_popCount
  have ha : A.getD i 0 < 2 ^ 8 := by
    rw [List.getD_eq_getElem?_getD, List.getElem?_eq_getElem hi1]
    exact hA _ (List.getElem_mem hi1)
  have hb : B.getD i 0 < 2 ^ 8 := by
    rw [List.getD_eq_getElem?_getD, List.getElem?_eq_getElem hi2]
    exact hB _ (List.getElem_mem hi2)
  exact Nat.xor_lt_two_pow ha hb

set_option maxRecDepth 100000 in
/-- Witness of C5 on `"this is a test"` and `"wokka wokka!!!"`, which are 37
bits apart. -/
theorem hammingDistance_eq_differingBits_witness :
    differingBits (stringBytes "this is a test") (stringBytes "wokka wokka!!!") = 37 ∧
      (hammingDistance (stringBytes "this is a test") (stringBytes "wokka wokka!!!")
          = .ok (differingBits (stringBytes "this is a test") (stringBytes "wokka wokka!!!"))
        ∧ differingBits (stringBytes "this is a test") (stringBytes "wokka wokka!!!")
          = ((List.zip (stringBytes "this is a test") (stringBytes "wokka wokka!!!")).map
              (fun ab => popCount (ab.1 ^^^ ab.2))).sum
        ∧ ∀ x < 256, countOnes (formatInt x 2) 0 = popCount x) :=
  ⟨by decide,
    hammingDistance_eq_differingBits (stringBytes "this is a test")
      (stringBytes "wokka wokka!!!") (by decide) (by unfold IsBytes; decide)
      (by unfold IsBytes; decide)⟩

/-- C6. `hammingDistance` takes its fatal `"Requires equal-length strings"`
branch if and only if its arguments have different lengths, it has no other
way to fail, and on arguments of equal length it returns a distance. -/
theorem hammingDistance_fails_iff (A B : List Nat) :
    (hammingDistance A B = .error (Fault.fatal "Requires equal-length strings")
        ↔ A.length ≠ B.length)
      ∧ ((∃ e, hammingDistance A B = .error e) ↔ A.length ≠ B.length)
      ∧ (A.length = B.length ↔ ∃ d, hammingDistance A B = .ok d) := by
  by_cases h : A.length = B.length
  · have hok := hammingDistance_eq A B h
    refine ⟨?_, ?_, ?_⟩
    · rw [hok]; simp [h]
    · rw [hok]; simp [h]
    · rw [hok]; simp [h]
  · have herr : hammingDistance A B = .error (Fault.fatal "Requires equal-length strings") := by
      unfold hammingDistance
      rw [if_pos h]
    refine ⟨?_, ?_, ?_⟩
    · rw [herr]; simp [h]
    · rw [herr]; simp [h]
    · rw [herr]; simp [h]


/-! ## The brute-force loop -/

/-- Reading index 0 of a non-empty slice succeeds with its first element. -/
theorem index_cons_zero {α : Type} (a : α) (l : List α) : index (a :: l) 0 = .ok a := by
  simp [index]

/-- From a counter value `i` with `n` more values up to 255, the loop
appends the results for `i, i+1, ..., 255` in that order. -/
theorem bruteForceLoop_from {F : Type} (rt : Runtime F) (data : List Nat) :
    ∀ (n i : Nat) (results : List (Result F)), i + n = 255 →
      bruteForceLoop rt data i results
        = results ++ (List.range' i (n + 1)).map (bruteForceResult rt data) := by
  intro n
  induction n with
  | zero =>
    intro i results h
    have hi : i = 255 := by omega
    subst hi
    rw [bruteForceLoop]
    simp [List.range']
  | succ n ih =>
    intro i results h
    have hi : i ≠ 255 := by omega
    have hmod : (i + 1) % 256 = i + 1 := Nat.mod_eq_of_lt (by omega)
    rw [bruteForceLoop, if_neg hi, hmod, ih (i + 1) _ (by omega)]
    simp [List.range']

/-- The loop started at key 0 produces the results for the keys
`0, 1, ..., 255`, in that order. -/
theorem bruteForceLoop_eq {F : Type} (rt : Runtime F) (data : List Nat) :
    bruteForceLoop rt data 0 [] = (List.range 256).map (bruteForceResult rt data) := by
  rw [bruteForceLoop_from rt data 255 0 [] (by omega), List.range_eq_range']
  simp

/-- What the contract of the sort gives for `singleByteXORBruteForce`: the
sorted results start with the result of the returned key, and no key scores
higher than it. -/
theorem bruteForce_head {F : Type} [LinearOrder F] (rt : Runtime F)
    (hsort : SortsBy ScoreSorter.Less (rt.sortSort (α := Result F) ScoreSorter.Less))
    (data : List Nat) :
    ∃ key rest, key < 256
      ∧ rt.sortSort ScoreSorter.Less ((List.range 256).map (bruteForceResult rt data))
          = bruteForceResult rt data key :: rest
      ∧ singleByteXORBruteForce rt data = .ok key
      ∧ ∀ k < 256, getEnglishScore rt (singleByteXOR data k)
          ≤ getEnglishScore rt (singleByteXOR data key) := by
  obtain ⟨hperm, hpair⟩ := hsort ((List.range 256).map (bruteForceResult rt data))
  cases hs : rt.sortSort ScoreSorter.Less ((List.range 256).map (bruteForceResult rt data)) with
  | nil =>
    rw [hs] at hperm
    have := hperm.length_eq
    simp at this
  | cons r0 rest =>
    rw [hs] at hperm hpair
    have hmem : r0 ∈ (List.range 256).map (bruteForceResult rt data) :=
      hperm.subset (List.mem_cons_self r0 rest)
    obtain ⟨key, hkey, rfl⟩ := List.mem_map.mp hmem
    refine ⟨key, rest, by simpa using hkey, rfl, ?_, ?_⟩
    · unfold singleByteXORBruteForce
      rw [bruteForceLoop_eq]
      dsimp only
      rw [hs, index_cons_zero]
      rfl
    · intro k hk
      have hk' : bruteForceResult rt data k ∈ bruteForceResult rt data key :: rest :=
        hperm.symm.subset (List.mem_map.mpr ⟨k, by simpa using hk, rfl⟩)
      rcases List.mem_cons.mp hk' with h | h
      · have hkk : k = key := congrArg Result.Key h
        rw [hkk]
      · have hle := (List.pairwise_cons.mp hpair).1 _ h
        unfold ScoreSorter.Less at hle
        exact not_lt.mp (of_decide_eq_false hle)

/-- C8. When `sort.Sort` keeps its contract, `singleByteXORBruteForce`
returns a key, and that key attains the highest score: for every byte `k`
the score of `singleByteXOR data k` is at most the score of
`singleByteXOR data key`. -/
theorem singleByteXORBruteForce_attains_max {F : Type} [LinearOrder F] (rt : Runtime F)
    (hsort : SortsBy ScoreSorter.Less (rt.sortSort (α := Result F) ScoreSorter.Less))
    (data : List Nat) :
    ∃ key, singleByteXORBruteForce rt data = .ok key ∧ key < 256 ∧
      ∀ k < 256, getEnglishScore rt (singleByteXOR data k)
        ≤ getEnglishScore rt (singleByteXOR data key) := by
  obtain ⟨key, _, hlt, _, hres, hmax⟩ := bruteForce_head rt hsort data
  exact ⟨key, hres, hlt, hmax⟩


/-! ## The two runtime instances keep the contract of the sort -/

/-- Insertion sort by "not `Less` the other way round" keeps the contract of
`sort.Sort` for every `Less` of which the negation is total and transitive. -/
theorem stableSort_sortsBy {α : Type} (less : α → α → Bool)
    (htot : ∀ a b, less b a = false ∨ less a b = false)
    (htrans : ∀ a b c, less b a = false → less c b = false → less c a = false) :
    SortsBy less (stableSort less) := by
  haveI : IsTotal α (fun a b => less b a = false) := ⟨htot⟩
  haveI : IsTrans α (fun a b => less b a = false) := ⟨htrans⟩
  intro l
  exact ⟨List.perm_insertionSort _ l, List.sorted_insertionSort _ l⟩

/-- The negation of `ScoreSorter.Less` is total. -/
theorem scoreSorter_total {F : Type} [LinearOrder F] (a b : Result F) :
    ScoreSorter.Less b a = false ∨ ScoreSorter.Less a b = false := by
  unfold ScoreSorter.Less
  rcases le_total a.Score b.Score with h | h
  · right; exact decide_eq_false (not_lt.mpr h)
  · left; exact decide_eq_false (not_lt.mpr h)

/-- The negation of `ScoreSorter.Less` is transitive. -/
theorem scoreSorter_trans {F : Type} [LinearOrder F] (a b c : Result F)
    (h1 : ScoreSorter.Less b a = false) (h2 : ScoreSorter.Less c b = false) :
    ScoreSorter.Less c a = false := by
  unfold ScoreSorter.Less at *
  have h1' := not_lt.mp (of_decide_eq_false h1)
  have h2' := not_lt.mp (of_decide_eq_false h2)
  exact decide_eq_false (not_lt.mpr (le_trans h2' h1'))

/-- The sort of `stableRuntime` keeps the contract for `ScoreSorter`. -/
theorem stableRuntime_sortsBy :
    SortsBy ScoreSorter.Less (stableRuntime.sortSort (α := Result Nat) ScoreSorter.Less) :=
  stableSort_sortsBy ScoreSorter.Less scoreSorter_total scoreSorter_trans

/-- Witness of C8: the stable runtime on the three bytes `1b 37 37`. -/
theorem singleByteXORBruteForce_attains_max_witness :
    SortsBy ScoreSorter.Less (stableRuntime.sortSort (α := Result Nat) ScoreSorter.Less) ∧
      ∃ key, singleByteXORBruteForce stableRuntime [0x1b, 0x37, 0x37] = .ok key ∧ key < 256 ∧
        ∀ k < 256, getEnglishScore stableRuntime (singleByteXOR [0x1b, 0x37, 0x37] k)
          ≤ getEnglishScore stableRuntime (singleByteXOR [0x1b, 0x37, 0x37] key) :=
  ⟨stableRuntime_sortsBy,
    singleByteXORBruteForce_attains_max stableRuntime stableRuntime_sortsBy [0x1b, 0x37, 0x37]⟩

/-! ## Ties -/

/-- The loop condition fails: the chunks are returned as they are. -/
theorem chunkLoop_exit (data spare : List Nat) (k i c : Nat) (chunks : List (List Nat))
    (hi : data.length < i) : chunkLoop data spare k i c chunks = .ok chunks := by
  rw [chunkLoop, if_neg (by omega)]

/-- The chunk would end beyond the capacity: slice bounds out of range. -/
theorem chunkLoop_fault (data spare : List Nat) (k i c : Nat) (chunks : List (List Nat))
    (hi : i ≤ data.length) (hc : c < chunks.length)
    (hs : data.length + spare.length < i + k) :
    chunkLoop data spare k i c chunks = .error Fault.sliceOutOfRange := by
  rw [chunkLoop, if_pos hi, if_pos hc]
  have : subslice data spare i (i + k) = .error Fault.sliceOutOfRange := by
    unfold subslice
    rw [if_neg (by omega)]
  rw [this]

/-- The chunk is within the capacity and is not the fourth: it is stored
and the loop goes on. -/
theorem chunkLoop_step (data spare : List Nat) (k i c : Nat) (chunks : List (List Nat))
    (hi : i ≤ data.length) (hc : c < chunks.length)
    (hs : i + k ≤ data.length + spare.length) (hc4 : c + 1 ≠ 4) :
    chunkLoop data spare k i c chunks
      = chunkLoop data spare k (i + k) (c + 1)
          (chunks.set c (((data ++ spare).drop i).take k)) := by
  rw [chunkLoop, if_pos hi, if_pos hc]
  have : subslice data spare i (i + k) = .ok (((data ++ spare).drop i).take k) := by
    unfold subslice
    rw [if_pos (by omega)]
    simp
  rw [this]
  simp only [if_neg hc4]

/-- The fourth chunk is within the capacity: it is stored and the loop ends. -/
theorem chunkLoop_last (data spare : List Nat) (k i c : Nat) (chunks : List (List Nat))
    (hi : i ≤ data.length) (hc : c < chunks.length)
    (hs : i + k ≤ data.length + spare.length) (hc4 : c + 1 = 4) :
    chunkLoop data spare k i c chunks
      = .ok (chunks.set c (((data ++ spare).drop i).take k)) := by
  rw [chunkLoop, if_pos hi, if_pos hc]
  have : subslice data spare i (i + k) = .ok (((data ++ spare).drop i).take k) := by
    unfold subslice
    rw [if_pos (by omega)]
    simp
  rw [this]
  simp only [if_pos hc4]

/-- The chunk of `k` elements at offset `i` of the backing array. -/
theorem chunk_length (data spare : List Nat) (k i : Nat)
    (hs : i + k ≤ data.length + spare.length) :
    (((data ++ spare).drop i).take k).length = k := by
  simp
  omega

/-- A chunk against a nil slice takes the fatal branch. -/
theorem hammingDistance_nil_right (a : List Nat) (h : a.length ≠ 0) :
    hammingDistance a [] = .error (Fault.fatal "Requires equal-length strings") := by
  unfold hammingDistance
  rw [if_pos (by simpa using h)]

/-- Two slices of the same length have a distance. -/
theorem hammingDistance_ok (a b : List Nat) (h : a.length = b.length) :
    ∃ d, hammingDistance a b = .ok d :=
  ⟨_, hammingDistance_eq a b h⟩


/-- A fault of the chunking loop is the fault of the whole sample. -/
theorem sampleDistance_of_chunk_fault (data spare : List Nat) (k : Nat) (e : Fault)
    (h : chunkLoop data spare k 0 0 (List.replicate 4 []) = .error e) :
    sampleDistance data spare k = .error e := by
  unfold sampleDistance
  rw [h]
  rfl

/-- One chunk fits the loop condition and the capacity holds it. -/
theorem chunkLoop_one (data spare : List Nat) (k : Nat)
    (h1 : data.length < k) (hc : k ≤ data.length + spare.length) :
    chunkLoop data spare k 0 0 (List.replicate 4 [])
      = .ok [((data ++ spare).drop 0).take k, [], [], []] := by
  rw [chunkLoop_step data spare k 0 0 _ (by omega) (by simp) (by omega) (by omega),
    chunkLoop_exit data spare k (0 + k) (0 + 1) _ (by omega)]
  rfl

/-- Two chunks fit the loop condition and the capacity holds them. -/
theorem chunkLoop_two (data spare : List Nat) (k : Nat)
    (h1 : k ≤ data.length) (h2 : data.length < 2 * k)
    (hc : 2 * k ≤ data.length + spare.length) :
    chunkLoop data spare k 0 0 (List.replicate 4 [])
      = .ok [((data ++ spare).drop 0).take k, ((data ++ spare).drop (0 + k)).take k, [], []] := by
  rw [chunkLoop_step data spare k 0 0 _ (by omega) (by simp) (by omega) (by omega),
    chunkLoop_step data spare k (0 + k) (0 + 1) _ (by omega) (by simp) (by omega) (by omega),
    chunkLoop_exit data spare k (0 + k + k) (0 + 1 + 1) _ (by omega)]
  rfl

/-- Three chunks fit the loop condition and the capacity holds them. -/
theorem chunkLoop_three (data spare : List Nat) (k : Nat)
    (h1 : 2 * k ≤ data.length) (h2 : data.length < 3 * k)
    (hc : 3 * k ≤ data.length + spare.length) :
    chunkLoop data spare k 0 0 (List.replicate 4 [])
      = .ok [((data ++ spare).drop 0).take k, ((data ++ spare).drop (0 + k)).take k,
          ((data ++ spare).drop (0 + k + k)).take k, []] := by
  rw [chunkLoop_step data spare k 0 0 _ (by omega) (by simp) (by omega) (by omega),
    chunkLoop_step data spare k (0 + k) (0 + 1) _ (by omega) (by simp) (by omega) (by omega),
    chunkLoop_step data spare k (0 + k + k) (0 + 1 + 1) _ (by omega) (by simp) (by omega)
      (by omega),
    chunkLoop_exit data spare k (0 + k + k + k) (0 + 1 + 1 + 1) _ (by omega)]
  rfl

/-- Four chunks fit the loop condition and the capacity holds them. -/
theorem chunkLoop_four (data spare : List Nat) (k : Nat)
    (h1 : 3 * k ≤ data.length) (hc : 4 * k ≤ data.length + spare.length) :
    chunkLoop data spare k 0 0 (List.replicate 4 [])
      = .ok [((data ++ spare).drop 0).take k, ((data ++ spare).drop (0 + k)).take k,
          ((data ++ spare).drop (0 + k + k)).take k,
          ((data ++ spare).drop (0 + k + k + k)).take k] := by
  rw [chunkLoop_step data spare k 0 0 _ (by omega) (by simp) (by omega) (by omega),
    chunkLoop_step data spare k (0 + k) (0 + 1) _ (by omega) (by simp) (by omega) (by omega),
    chunkLoop_step data spare k (0 + k + k) (0 + 1 + 1) _ (by omega) (by simp) (by omega)
      (by omega),
    chunkLoop_last data spare k (0 + k + k + k) (0 + 1 + 1 + 1) _ (by omega) (by simp)
      (by omega) (by omega)]
  rfl

/-- The loop reaches a chunk that ends beyond the capacity: the sample
panics with slice bounds out of range. -/
theorem sampleDistance_slice_fault (data spare : List Nat) (k : Nat)
    (h : (data.length + spare.length < k)
      ∨ (k ≤ data.length ∧ data.length + spare.length < 2 * k)
      ∨ (2 * k ≤ data.length ∧ data.length + spare.length < 3 * k)
      ∨ (3 * k ≤ data.length ∧ data.length + spare.length < 4 * k)) :
    sampleDistance data spare k = .error Fault.sliceOutOfRange := by
  apply sampleDistance_of_chunk_fault
  rcases h with h | ⟨h1, h2⟩ | ⟨h1, h2⟩ | ⟨h1, h2⟩
  · exact chunkLoop_fault data spare k 0 0 _ (by omega) (by simp) (by omega)
  · rw [chunkLoop_step data spare k 0 0 _ (by omega) (by simp) (by omega) (by omega)]
    exact chunkLoop_fault data spare k (0 + k) (0 + 1) _ (by omega) (by simp) (by omega)
  · rw [chunkLoop_step data spare k 0 0 _ (by omega) (by simp) (by omega) (by omega),
      chunkLoop_step data spare k (0 + k) (0 + 1) _ (by omega) (by simp) (by omega) (by omega)]
    exact chunkLoop_fault data spare k (0 + k + k) (0 + 1 + 1) _ (by omega) (by simp) (by omega)
  · rw [chunkLoop_step data spare k 0 0 _ (by omega) (by simp) (by omega) (by omega),
      chunkLoop_step data spare k (0 + k) (0 + 1) _ (by omega) (by simp) (by omega) (by omega),
      chunkLoop_step data spare k (0 + k + k) (0 + 1 + 1) _ (by omega) (by simp) (by omega)
        (by omega)]
    exact chunkLoop_fault data spare k (0 + k + k + k) (0 + 1 + 1 + 1) _ (by omega) (by simp)
      (by omega)

/-- Fewer than four chunks fit the loop condition and the capacity holds
them: a chunk is compared with a nil slice and the sample ends in the fatal
branch of `hammingDistance`. -/
theorem sampleDistance_fatal (data spare : List Nat) (k : Nat) (hk : 1 ≤ k)
    (h : (data.length < k ∧ k ≤ data.length + spare.length)
      ∨ (k ≤ data.length ∧ data.length < 2 * k ∧ 2 * k ≤ data.length + spare.length)
      ∨ (2 * k ≤ data.length ∧ data.length < 3 * k ∧ 3 * k ≤ data.length + spare.length)) :
    sampleDistance data spare k = .error (Fault.fatal "Requires equal-length strings") := by
  unfold sampleDistance
  rcases h with ⟨h1, hc⟩ | ⟨h1, h2, hc⟩ | ⟨h1, h2, hc⟩
  · rw [chunkLoop_one data spare k h1 hc]
    have hl0 := chunk_length data spare k 0 (by omega)
    have h01 := hammingDistance_nil_right (((data ++ spare).drop 0).take k) (by omega)
    simp only [bind, Except.bind, List.getD_cons_zero, List.getD_cons_succ] at *
    rw [h01]
  · rw [chunkLoop_two data spare k h1 h2 hc]
    have hl0 := chunk_length data spare k 0 (by omega)
    have hl1 := chunk_length data spare k (0 + k) (by omega)
    obtain ⟨d01, h01⟩ := hammingDistance_ok _ _ (hl0.trans hl1.symm)
    have h02 := hammingDistance_nil_right (((data ++ spare).drop 0).take k) (by omega)
    simp only [bind, Except.bind, List.getD_cons_zero, List.getD_cons_succ] at *
    rw [h01, h02]
  · rw [chunkLoop_three data spare k h1 h2 hc]
    have hl0 := chunk_length data spare k 0 (by omega)
    have hl1 := chunk_length data spare k (0 + k) (by omega)
    have hl2 := chunk_length data spare k (0 + k + k) (by omega)
    obtain ⟨d01, h01⟩ := hammingDistance_ok _ _ (hl0.trans hl1.symm)
    obtain ⟨d02, h02⟩ := hammingDistance_ok _ _ (hl0.trans hl2.symm)
    have h03 := hammingDistance_nil_right (((data ++ spare).drop 0).take k) (by omega)
    simp only [bind, Except.bind, List.getD_cons_zero, List.getD_cons_succ] at *
    rw [h01, h02, h03]

/-- Four chunks fit the loop condition and the capacity holds them: the
sample is the sum of the six distances between the four chunks of the
backing array. -/
theorem sampleDistance_four (data spare : List Nat) (k : Nat)
    (h1 : 3 * k ≤ data.length) (hc : 4 * k ≤ data.length + spare.length) :
    ∃ d01 d02 d03 d12 d13 d23,
      hammingDistance (((data ++ spare).drop 0).take k) (((data ++ spare).drop k).take k)
          = .ok d01
      ∧ hammingDistance (((data ++ spare).drop 0).take k)
          (((data ++ spare).drop (2 * k)).take k) = .ok d02
      ∧ hammingDistance (((data ++ spare).drop 0).take k)
          (((data ++ spare).drop (3 * k)).take k) = .ok d03
      ∧ hammingDistance (((data ++ spare).drop k).take k)
          (((data ++ spare).drop (2 * k)).take k) = .ok d12
      ∧ hammingDistance (((data ++ spare).drop k).take k)
          (((data ++ spare).drop (3 * k)).take k) = .ok d13
      ∧ hammingDistance (((data ++ spare).drop (2 * k)).take k)
          (((data ++ spare).drop (3 * k)).take k) = .ok d23
      ∧ sampleDistance data spare k = .ok (d01 + d02 + d03 + d12 + d13 + d23) := by
  have e1 : 0 + k = k := by omega
  have e2 : 0 + k + k = 2 * k := by omega
  have e3 : 0 + k + k + k = 3 * k := by omega
  have hl0 := chunk_length data spare k 0 (by omega)
  have hl1 := chunk_length data spare k k (by omega)
  have hl2 := chunk_length data spare k (2 * k) (by omega)
  have hl3 := chunk_length data spare k (3 * k) (by omega)
  obtain ⟨d01, h01⟩ := hammingDistance_ok _ _ (hl0.trans hl1.symm)
  obtain ⟨d02, h02⟩ := hammingDistance_ok _ _ (hl0.trans hl2.symm)
  obtain ⟨d03, h03⟩ := hammingDistance_ok _ _ (hl0.trans hl3.symm)
  obtain ⟨d12, h12⟩ := hammingDistance_ok _ _ (hl1.trans hl2.symm)
  obtain ⟨d13, h13⟩ := hammingDistance_ok _ _ (hl1.trans hl3.symm)
  obtain ⟨d23, h23⟩ := hammingDistance_ok _ _ (hl2.trans hl3.symm)
  refine ⟨d01, d02, d03, d12, d13, d23, h01, h02, h03, h12, h13, h23, ?_⟩
  unfold sampleDistance
  rw [chunkLoop_four data spare k h1 hc, e3, e2, e1]
  simp only [bind, Except.bind, List.getD_cons_zero, List.getD_cons_succ]
  rw [h01, h02, h03, h12, h13, h23]
  simp only [Nat.zero_add]
  rfl

/-- The three outcomes of the sample for a key size of at least one. -/
theorem sampleDistance_outcome (data spare : List Nat) (k : Nat) (hk : 1 ≤ k) :
    (sampleDistance data spare k = .error Fault.sliceOutOfRange
        ∧ spare.length < k ∧ data.length + spare.length < 4 * k)
      ∨ (sampleDistance data spare k = .error (Fault.fatal "Requires equal-length strings")
        ∧ data.length < 3 * k ∧ 0 < spare.length)
      ∨ (∃ d, sampleDistance data spare k = .ok d
        ∧ 3 * k ≤ data.length ∧ 4 * k ≤ data.length + spare.length) := by
  by_cases c1 : data.length + spare.length < k
  · exact Or.inl ⟨sampleDistance_slice_fault data spare k (Or.inl c1), by omega, by omega⟩
  by_cases l1 : data.length < k
  · exact Or.inr (Or.inl ⟨sampleDistance_fatal data spare k hk (Or.inl ⟨l1, by omega⟩),
      by omega, by omega⟩)
  by_cases c2 : data.length + spare.length < 2 * k
  · exact Or.inl ⟨sampleDistance_slice_fault data spare k (Or.inr (Or.inl ⟨by omega, c2⟩)),
      by omega, by omega⟩
  by_cases l2 : data.length < 2 * k
  · exact Or.inr (Or.inl ⟨sampleDistance_fatal data spare k hk
      (Or.inr (Or.inl ⟨by omega, l2, by omega⟩)), by omega, by omega⟩)
  by_cases c3 : data.length + spare.length < 3 * k
  · exact Or.inl ⟨sampleDistance_slice_fault data spare k
      (Or.inr (Or.inr (Or.inl ⟨by omega, c3⟩))), by omega, by omega⟩
  by_cases l3 : data.length < 3 * k
  · exact Or.inr (Or.inl ⟨sampleDistance_fatal data spare k hk
      (Or.inr (Or.inr ⟨by omega, l3, by omega⟩)), by omega, by omega⟩)
  by_cases c4 : data.length + spare.length < 4 * k
  · exact Or.inl ⟨sampleDistance_slice_fault data spare k
      (Or.inr (Or.inr (Or.inr ⟨by omega, c4⟩))), by omega, by omega⟩
  · obtain ⟨d01, d02, d03, d12, d13, d23, _, _, _, _, _, _, h⟩ :=
      sampleDistance_four data spare k (by omega) (by omega)
    exact Or.inr (Or.inr ⟨_, h, by omega, by omega⟩)


/-! ## The key-size loop -/

/-- A fault of the sample is the fault of the estimate. -/
theorem keySizeEstimate_of_fault {F : Type} (rt : Runtime F) (data spare : List Nat) (k : Nat)
    (e : Fault) (h : sampleDistance data spare k = .error e) :
    keySizeEstimate rt data spare k = .error e := by
  unfold keySizeEstimate
  rw [h]
  rfl

/-- The estimate computed from a sample. -/
theorem keySizeEstimate_of_ok {F : Type} (rt : Runtime F) (data spare : List Nat) (k d : Nat)
    (h : sampleDistance data spare k = .ok d) :
    keySizeEstimate rt data spare k
      = .ok { KeySize := k,
              Distance := rt.div (rt.div (rt.ofInt d) (rt.ofInt 6)) (rt.ofInt k) } := by
  unfold keySizeEstimate
  rw [h]
  rfl

/-- An estimate carries the key size it was computed for. -/
theorem keySizeEstimate_keySize {F : Type} (rt : Runtime F) (data spare : List Nat) (k : Nat)
    (est : keySizeDistance F) (h : keySizeEstimate rt data spare k = .ok est) :
    est.KeySize = k := by
  cases hs : sampleDistance data spare k with
  | error e =>
    rw [keySizeEstimate_of_fault rt data spare k e hs] at h
    cases h
  | ok d =>
    rw [keySizeEstimate_of_ok rt data spare k d hs] at h
    cases h
    rfl

/-- One iteration of the key-size loop. -/
theorem estimateLoop_cons {F : Type} (rt : Runtime F) (data spare : List Nat) (k : Nat)
    (ks : List Nat) (init : List (keySizeDistance F)) :
    estimateLoop rt data spare (k :: ks) init
      = (keySizeEstimate rt data spare k >>= fun e =>
          estimateLoop rt data spare ks (init ++ [e])) := by
  unfold estimateLoop
  rw [List.foldlM_cons]
  cases keySizeEstimate rt data spare k <;> rfl

/-- A fault in the iteration of one key size ends the key-size loop with a
fault: the loop does not go on to the next key size. -/
theorem estimateLoop_fault {F : Type} (rt : Runtime F) (data spare : List Nat) (k : Nat) :
    ∀ (ks : List Nat) (init : List (keySizeDistance F)), k ∈ ks →
      (∃ e, keySizeEstimate rt data spare k = .error e) →
      ∃ e, estimateLoop rt data spare ks init = .error e := by
  intro ks
  induction ks with
  | nil => intro _ hmem; cases hmem
  | cons x ks ih =>
    intro init hmem hk
    rw [estimateLoop_cons]
    cases hx : keySizeEstimate rt data spare x with
    | error e => exact ⟨e, rfl⟩
    | ok est =>
      rcases List.mem_cons.mp hmem with h | h
      · subst h
        obtain ⟨e, he⟩ := hk
        rw [he] at hx
        cases hx
      · exact ih (init ++ [est]) h hk

/-- A key-size loop that ends without a fault has appended one estimate for
every key size, in order: no key size is skipped. -/
theorem estimateLoop_keySizes {F : Type} (rt : Runtime F) (data spare : List Nat) :
    ∀ (ks : List Nat) (init nds : List (keySizeDistance F)),
      estimateLoop rt data spare ks init = .ok nds →
      nds.map (fun v => v.KeySize) = init.map (fun v => v.KeySize) ++ ks := by
  intro ks
  induction ks with
  | nil =>
    intro init nds h
    have : init = nds := by
      unfold estimateLoop at h
      simpa [pure, Except.pure] using h
    subst this
    simp
  | cons x ks ih =>
    intro init nds h
    rw [estimateLoop_cons] at h
    cases hx : keySizeEstimate rt data spare x with
    | error e =>
      rw [hx] at h
      cases h
    | ok est =>
      rw [hx] at h
      have := ih (init ++ [est]) nds h
      rw [this]
      simp [keySizeEstimate_keySize rt data spare x est hx]

/-- A fault of the key-size loop is the fault of `breakRepeatingKeyXOR`. -/
theorem breakRepeatingKeyXOR_of_fault {F : Type} [LinearOrder F] (rt : Runtime F)
    (data spare : List Nat) (e : Fault) (h : normalizedDistances rt data spare = .error e) :
    breakRepeatingKeyXOR rt data spare = .error e := by
  unfold breakRepeatingKeyXOR
  rw [h]
  rfl

/-- C10, as amended. For every ciphertext and every key size `k` in
`2 .. 42` with `len(ciphertext) < 4*k`, the key size is never skipped. Its
iteration stops in a slice-bounds panic (always so when the backing array
has no spare capacity) or in the fatal unequal-lengths branch, and either
fault stops the whole run; only when `3*k <= len` and `4*k <= cap` does the
iteration go through, and then it records an estimate for `k`, taken from
chunks that reach beyond the ciphertext. A run of the key-size loop without
a fault has recorded an estimate for every key size `2 .. 42`. -/
theorem insufficient_data_not_skipped {F : Type} [LinearOrder F] (rt : Runtime F)
    (data spare : List Nat) (k : Nat) (hk2 : 2 ≤ k) (hk42 : k ≤ 42)
    (hlen : data.length < 4 * k) :
    ((keySizeEstimate rt data spare k = .error Fault.sliceOutOfRange
          ∧ data.length + spare.length < 4 * k)
        ∨ (keySizeEstimate rt data spare k
            = .error (Fault.fatal "Requires equal-length strings")
          ∧ data.length < 3 * k ∧ 0 < spare.length)
        ∨ (∃ est, keySizeEstimate rt data spare k = .ok est ∧ est.KeySize = k
          ∧ 3 * k ≤ data.length ∧ 4 * k ≤ data.length + spare.length))
      ∧ (spare = [] → keySizeEstimate rt data spare k = .error Fault.sliceOutOfRange)
      ∧ (∀ e, keySizeEstimate rt data spare k = .error e →
          ∃ e', normalizedDistances rt data spare = .error e'
            ∧ breakRepeatingKeyXOR rt data spare = .error e')
      ∧ (∀ nds, normalizedDistances rt data spare = .ok nds →
          nds.map (fun v => v.KeySize) = List.range' 2 41
            ∧ k ∈ nds.map (fun v => v.KeySize)) := by
  have hout := sampleDistance_outcome data spare k (by omega)
  have hmem : k ∈ List.range' 2 41 := by
    rw [List.mem_range']
    exact ⟨k - 2, by omega, by omega⟩
  refine ⟨?_, ?_, ?_, ?_⟩
  · rcases hout with ⟨h, _, hc⟩ | ⟨h, hl, hs⟩ | ⟨d, h, hl, hc⟩
    · exact Or.inl ⟨keySizeEstimate_of_fault rt data spare k _ h, hc⟩
    · exact Or.inr (Or.inl ⟨keySizeEstimate_of_fault rt data spare k _ h, hl, hs⟩)
    · exact Or.inr (Or.inr ⟨_, keySizeEstimate_of_ok rt data spare k d h, rfl, hl, hc⟩)
  · intro hspare
    subst hspare
    rcases hout with ⟨h, _, _⟩ | ⟨_, _, hs⟩ | ⟨d, _, hl, hc⟩
    · exact keySizeEstimate_of_fault rt data [] k _ h
    · simp at hs
    · simp at hc
      omega
  · intro e he
    obtain ⟨e', he'⟩ := estimateLoop_fault rt data spare k (List.range' 2 41) [] hmem ⟨e, he⟩
    exact ⟨e', he', breakRepeatingKeyXOR_of_fault rt data spare e' he'⟩
  · intro nds hnds
    have h := estimateLoop_keySizes rt data spare (List.range' 2 41) [] nds hnds
    simp only [List.map_nil, List.nil_append] at h
    rw [h]
    exact ⟨rfl, hmem⟩

/-- Witness of C10 as amended: seven bytes, one spare byte of capacity and
the key size 2. -/
theorem insufficient_data_not_skipped_witness :
    (2 ≤ 2 ∧ 2 ≤ 42 ∧ [1, 2, 3, 4, 5, 6, 7].length < 4 * 2) ∧
    (((keySizeEstimate stableRuntime [1, 2, 3, 4, 5, 6, 7] [0] 2 = .error Fault.sliceOutOfRange
          ∧ [1, 2, 3, 4, 5, 6, 7].length + [0].length < 4 * 2)
        ∨ (keySizeEstimate stableRuntime [1, 2, 3, 4, 5, 6, 7] [0] 2
            = .error (Fault.fatal "Requires equal-length strings")
          ∧ [1, 2, 3, 4, 5, 6, 7].length < 3 * 2 ∧ 0 < [0].length)
        ∨ (∃ est, keySizeEstimate stableRuntime [1, 2, 3, 4, 5, 6, 7] [0] 2 = .ok est
          ∧ est.KeySize = 2
          ∧ 3 * 2 ≤ [1, 2, 3, 4, 5, 6, 7].length
          ∧ 4 * 2 ≤ [1, 2, 3, 4, 5, 6, 7].length + [0].length))
      ∧ (([0] : List Nat) = [] →
          keySizeEstimate stableRuntime [1, 2, 3, 4, 5, 6, 7] [0] 2
            = .error Fault.sliceOutOfRange)
      ∧ (∀ e, keySizeEstimate stableRuntime [1, 2, 3, 4, 5, 6, 7] [0] 2 = .error e →
          ∃ e', normalizedDistances stableRuntime [1, 2, 3, 4, 5, 6, 7] [0] = .error e'
            ∧ breakRepeatingKeyXOR stableRuntime [1, 2, 3, 4, 5, 6, 7] [0] = .error e')
      ∧ (∀ nds, normalizedDistances stableRuntime [1, 2, 3, 4, 5, 6, 7] [0] = .ok nds →
          nds.map (fun v => v.KeySize) = List.range' 2 41
            ∧ 2 ∈ nds.map (fun v => v.KeySize))) :=
  ⟨by decide,
    insufficient_data_not_skipped stableRuntime [1, 2, 3, 4, 5, 6, 7] [0] 2 (by decide)
      (by decide) (by decide)⟩

/-- Counterexample to C10. On the empty ciphertext the key size 2 is not
skipped: without spare capacity the run panics with slice bounds out of
range, and with 512 spare bytes it ends in the fatal unequal-lengths branch.
On seven bytes with one spare byte the key size 2 is not skipped either: an
estimate is recorded for it. -/
theorem insufficient_data_counterexample :
    ([] : List Nat).length < 4 * 2
      ∧ normalizedDistances stableRuntime [] [] = .error Fault.sliceOutOfRange
      ∧ breakRepeatingKeyXOR stableRuntime [] [] = .error Fault.sliceOutOfRange
      ∧ breakRepeatingKeyXOR stableRuntime [] (List.replicate 512 0)
          = .error (Fault.fatal "Requires equal-length strings")
      ∧ ∃ est, keySizeEstimate stableRuntime [1, 2, 3, 4, 5, 6, 7] [0] 2 = .ok est
          ∧ est.KeySize = 2 := by
  have h1 : keySizeEstimate stableRuntime [] [] 2 = .error Fault.sliceOutOfRange :=
    keySizeEstimate_of_fault _ _ _ _ _
      (sampleDistance_slice_fault [] [] 2 (Or.inl (by decide)))
  have h2 : keySizeEstimate stableRuntime [] (List.replicate 512 0) 2
      = .error (Fault.fatal "Requires equal-length strings") :=
    keySizeEstimate_of_fault _ _ _ _ _
      (sampleDistance_fatal [] (List.replicate 512 0) 2 (by decide)
        (Or.inl ⟨by decide, by simp only [List.length_replicate, List.length_nil]; omega⟩))
  have hloop : ∀ (spare : List Nat) (e : Fault),
      keySizeEstimate stableRuntime [] spare 2 = .error e →
      normalizedDistances stableRuntime [] spare = .error e := by
    intro spare e h
    unfold normalizedDistances
    rw [show List.range' 2 41 = 2 :: List.range' 3 40 from rfl, estimateLoop_cons, h]
    rfl
  refine ⟨by decide, hloop _ _ h1, breakRepeatingKeyXOR_of_fault _ _ _ _ (hloop _ _ h1),
    breakRepeatingKeyXOR_of_fault _ _ _ _ (hloop _ _ h2), ?_⟩
  obtain ⟨d01, d02, d03, d12, d13, d23, _, _, _, _, _, _, h⟩ :=
    sampleDistance_four [1, 2, 3, 4, 5, 6, 7] [0] 2 (by decide) (by decide)
  exact ⟨_, keySizeEstimate_of_ok stableRuntime _ _ 2 _ h, rfl⟩

/-! ## Transposition -/

/-- The number of positions `j, j+k, j+2k, ...` below `len`. -/
theorem column_count_succ (len j k : Nat) (hk : 0 < k) (hj : j < len) :
    (len - j + k - 1) / k = (len - (j + k) + k - 1) / k + 1 := by
  by_cases h : j + k ≤ len
  · have e : len - j + k - 1 = (len - (j + k) + k - 1) + k := by omega
    rw [e, Nat.add_div_right _ hk]
  · have e1 : len - (j + k) + k - 1 = k - 1 := by omega
    have e2 : len - j + k - 1 = (len - j - 1) + k := by omega
    rw [e1, e2, Nat.add_div_right _ hk, Nat.div_eq_of_lt (by omega : k - 1 < k),
      Nat.div_eq_of_lt (by omega : len - j - 1 < k)]

/-- Closed form of the transposition loop for a key size of at least one:
it appends `data[j], data[j+k], data[j+2k], ...` to the block. -/
theorem transposeLoop_eq (data : List Nat) (k : Nat) (hk : 0 < k) :
    ∀ (m j : Nat) (block : List Nat), data.length - j = m →
      transposeLoop data k j block
        = .ok (block ++ (List.range ((data.length - j + k - 1) / k)).map
            (fun n => data.getD (j + n * k) 0)) := by
  intro m
  induction m using Nat.strong_induction_on with
  | _ m ih =>
    intro j block hm
    rw [transposeLoop]
    by_cases hj : j < data.length
    · rw [dif_pos hj, if_neg (by omega)]
      rw [ih (data.length - (j + k)) (by omega) (j + k) _ rfl,
        column_count_succ data.length j k hk hj, List.range_succ_eq_map]
      simp only [List.map_cons, List.map_map, List.append_assoc, List.singleton_append,
        Nat.zero_mul, Nat.add_zero]
      congr 3
      · rw [List.getD_eq_getElem?_getD, List.getElem?_eq_getElem hj]
        rfl
      · apply List.map_congr_left
        intro n _
        show data.getD (j + k + n * k) 0 = data.getD (j + (n + 1) * k) 0
        rw [Nat.succ_mul]
        congr 1
        omega
    · rw [dif_neg hj]
      have : (data.length - j + k - 1) / k = 0 :=
        Nat.div_eq_of_lt (by omega)
      rw [this]
      simp

/-- The column `i` of `data` for the key size `k`. -/
theorem transposeLoop_column (data : List Nat) (k i : Nat) (hk : 0 < k) :
    transposeLoop data k i []
      = .ok ((List.range ((data.length - i + k - 1) / k)).map
          (fun n => data.getD (i + n * k) 0)) := by
  rw [transposeLoop_eq data k hk _ i [] rfl]
  simp

/-- An index below the number of positions of a column is a position of
the data. -/
theorem column_index_lt (len i k n : Nat) (hk : 0 < k) (hn : n < (len - i + k - 1) / k) :
    i + n * k < len := by
  have h := (Nat.le_div_iff_mul_le hk).mp (Nat.succ_le_of_lt hn)
  rw [Nat.succ_mul] at h
  omega

/-- C14. For every ciphertext, key size `k >= 1` and column index `i`,
building the transposed block never fails, and the block is the sequence
`data[i], data[i+k], data[i+2k], ...` of all positions below `len(data)`, in
order: its length is the ceiling of `(len(data) - i) / k` when
`i < len(data)`, it is empty when `i >= len(data)`, its `n`-th element is
`data[i + n*k]`, and every position `i + n*k` below `len(data)` is taken. -/
theorem transposed_block (data : List Nat) (k i : Nat) (hk : 1 ≤ k) :
    ∃ block, transposeLoop data k i [] = .ok block
      ∧ block.length = (data.length - i + k - 1) / k
      ∧ (i < data.length →
          (block.length - 1) * k < data.length - i ∧ data.length - i ≤ block.length * k)
      ∧ (data.length ≤ i → block = [])
      ∧ (∀ n, n < block.length → i + n * k < data.length ∧ block[n]? = data[i + n * k]?)
      ∧ (∀ p, p < data.length → i ≤ p → (p - i) % k = 0 →
          ∃ n, n < block.length ∧ p = i + n * k) := by
  have hk0 : 0 < k := hk
  refine ⟨_, transposeLoop_column data k i hk0, by simp, ?_, ?_, ?_, ?_⟩
  · intro hi
    simp only [List.length_map, List.length_range]
    have h1 := Nat.div_add_mod (data.length - i + k - 1) k
    have h2 := Nat.mod_lt (data.length - i + k - 1) hk0
    rw [Nat.mul_comm] at h1
    have hpos : 1 ≤ (data.length - i + k - 1) / k :=
      (Nat.le_div_iff_mul_le hk0).mpr (by omega)
    obtain ⟨c, hc⟩ : ∃ c, (data.length - i + k - 1) / k = c + 1 :=
      ⟨(data.length - i + k - 1) / k - 1, by omega⟩
    rw [hc] at h1 ⊢
    rw [Nat.succ_mul] at h1 ⊢
    simp only [Nat.add_sub_cancel]
    omega
  · intro hi
    have : (data.length - i + k - 1) / k = 0 := Nat.div_eq_of_lt (by omega)
    rw [this]
    rfl
  · intro n hn
    simp only [List.length_map, List.length_range] at hn
    have hlt := column_index_lt data.length i k n hk0 hn
    refine ⟨hlt, ?_⟩
    rw [List.getElem?_map, List.getElem?_range hn, List.getElem?_eq_getElem hlt]
    simp [List.getD_eq_getElem?_getD, List.getElem?_eq_getElem hlt]
  · intro p hp hip hmod
    refine ⟨(p - i) / k, ?_, ?_⟩
    · simp only [List.length_map, List.length_range]
      apply Nat.lt_of_succ_le
      rw [Nat.le_div_iff_mul_le hk0, Nat.succ_mul,
        Nat.div_mul_cancel (Nat.dvd_of_mod_eq_zero hmod)]
      omega
    · rw [Nat.div_mul_cancel (Nat.dvd_of_mod_eq_zero hmod)]
      omega

/-- Witness of C14: the column 1 of seven bytes for the key size 3. -/
theorem transposed_block_witness :
    1 ≤ 3 ∧ ∃ block, transposeLoop [10, 11, 12, 13, 14, 15, 16] 3 1 [] = .ok block
      ∧ block.length = ([10, 11, 12, 13, 14, 15, 16].length - 1 + 3 - 1) / 3
      ∧ (1 < [10, 11, 12, 13, 14, 15, 16].length →
          (block.length - 1) * 3 < [10, 11, 12, 13, 14, 15, 16].length - 1
            ∧ [10, 11, 12, 13, 14, 15, 16].length - 1 ≤ block.length * 3)
      ∧ ([10, 11, 12, 13, 14, 15, 16].length ≤ 1 → block = [])
      ∧ (∀ n, n < block.length → 1 + n * 3 < [10, 11, 12, 13, 14, 15, 16].length
          ∧ block[n]? = [10, 11, 12, 13, 14, 15, 16][1 + n * 3]?)
      ∧ (∀ p, p < [10, 11, 12, 13, 14, 15, 16].length → 1 ≤ p → (p - 1) % 3 = 0 →
          ∃ n, n < block.length ∧ p = 1 + n * 3) :=
  ⟨by decide, transposed_block [10, 11, 12, 13, 14, 15, 16] 3 1 (by decide)⟩

/-- C20. Transposition commutes with repeating-key XOR: for every byte
sequence `D`, every non-empty key `K` of length `k` and every column index
`i < k`, encrypting and transposing succeed, and the column `i` of
`multiByteXOR D K` is `singleByteXOR` of the column `i` of `D` with `K[i]`. -/
theorem transpose_multiByteXOR (D K : List Nat) (i : Nat) (hK : K ≠ []) (hi : i < K.length) :
    ∃ E columnE columnD, multiByteXOR D K = .ok E
      ∧ transposeLoop E K.length i [] = .ok columnE
      ∧ transposeLoop D K.length i [] = .ok columnD
      ∧ columnE = singleByteXOR columnD K[i] := by
  have hk0 : 0 < K.length := by omega
  refine ⟨_, _, _, multiByteXOR_eq_map D K hK, transposeLoop_column _ K.length i hk0,
    transposeLoop_column D K.length i hk0, ?_⟩
  rw [singleByteXOR_eq_map, List.map_map]
  simp only [List.length_map, List.length_range]
  apply List.map_congr_left
  intro n hn
  have hn' : n < (D.length - i + K.length - 1) / K.length := by simpa using hn
  have hlt := column_index_lt D.length i K.length n hk0 hn'
  simp only [Function.comp, List.getD_eq_getElem?_getD]
  rw [List.getElem?_map, List.getElem?_range hlt]
  simp only [Option.map_some', Option.getD_some, Nat.add_mul_mod_self_right,
    Nat.mod_eq_of_lt hi, List.getElem?_eq_getElem hlt, List.getElem?_eq_getElem hi]

/-- Witness of C20: the column 1 of five bytes under a key of two bytes. -/
theorem transpose_multiByteXOR_witness :
    ([7, 9] : List Nat) ≠ [] ∧ 1 < [7, 9].length ∧
      ∃ E columnE columnD, multiByteXOR [1, 2, 3, 4, 5] [7, 9] = .ok E
        ∧ transposeLoop E [7, 9].length 1 [] = .ok columnE
        ∧ transposeLoop [1, 2, 3, 4, 5] [7, 9].length 1 [] = .ok columnD
        ∧ columnE = singleByteXOR columnD 9 :=
  ⟨by decide, by decide, transpose_multiByteXOR [1, 2, 3, 4, 5] [7, 9] 1 (by decide) (by decide)⟩

/-! ## The iterations of the brute-force loop -/

/-- From a counter value `i` with `n` more values up to 255, the loop body
runs at `i, i+1, ..., 255`. -/
theorem bruteForceCounters_from :
    ∀ (n i : Nat), i + n = 255 → bruteForceCounters i = List.range' i (n + 1) := by
  intro n
  induction n with
  | zero =>
    intro i h
    have hi : i = 255 := by omega
    subst hi
    rw [bruteForceCounters]
    simp [List.range']
  | succ n ih =>
    intro i h
    have hi : i ≠ 255 := by omega
    have hmod : (i + 1) % 256 = i + 1 := Nat.mod_eq_of_lt (by omega)
    rw [bruteForceCounters, if_neg hi, hmod, ih (i + 1) (by omega)]
    simp [List.range']

/-- C19. The brute-force loop of `singleByteXORBruteForce` runs its body
exactly 256 times, at the counter values `0, 1, ..., 255` in ascending
order, and then leaves; no increment of the counter wraps around; and the
results it has produced before sorting are, in that order, one result for
each key `k` in `0 .. 255`, holding the key, `singleByteXOR data k` and the
score of that plaintext. -/
theorem bruteForce_loop_iterations {F : Type} (rt : Runtime F) (data : List Nat) :
    bruteForceCounters 0 = List.range 256
      ∧ (bruteForceCounters 0).length = 256
      ∧ (∀ i ∈ bruteForceCounters 0, i ≠ 255 → (i + 1) % 256 = i + 1)
      ∧ bruteForceLoop rt data 0 [] = (bruteForceCounters 0).map (bruteForceResult rt data)
      ∧ (bruteForceLoop rt data 0 []).length = 256
      ∧ ∀ k < 256, (bruteForceLoop rt data 0 [])[k]?
          = some { Key := k, Score := getEnglishScore rt (singleByteXOR data k),
                   Plaintext := singleByteXOR data k } := by
  have hc : bruteForceCounters 0 = List.range 256 := by
    rw [bruteForceCounters_from 255 0 (by omega), List.range_eq_range']
  refine ⟨hc, by rw [hc]; simp, ?_, by rw [hc, bruteForceLoop_eq], by rw [bruteForceLoop_eq]; simp,
    ?_⟩
  · intro i hi _
    rw [hc, List.mem_range] at hi
    exact Nat.mod_eq_of_lt (by omega)
  · intro k hk
    rw [bruteForceLoop_eq, List.getElem?_map, List.getElem?_range hk]
    rfl

/-! ## Loops that append one result per element -/

/-- A loop that appends the result of `f` for every element, and fails when
`f` fails: when it ends without a fault, what it has appended are the
results of `f`, element by element. -/
theorem foldlM_collect_of_ok {α β : Type} (body : List β → α → Except Fault (List β))
    (f : α → Except Fault β)
    (hok : ∀ acc x y, f x = .ok y → body acc x = .ok (acc ++ [y]))
    (herr : ∀ acc x e, f x = .error e → body acc x = .error e) :
    ∀ (l : List α) (init res : List β), l.foldlM body init = .ok res →
      ∃ ys, res = init ++ ys ∧ List.Forall₂ (fun x y => f x = .ok y) l ys := by
  intro l
  induction l with
  | nil =>
    intro init res h
    have : init = res := by simpa [pure, Except.pure] using h
    exact ⟨[], by simp [this], List.Forall₂.nil⟩
  | cons x l ih =>
    intro init res h
    rw [List.foldlM_cons] at h
    cases hx : f x with
    | error e =>
      rw [herr init x e hx] at h
      cases h
    | ok y =>
      rw [hok init x y hx] at h
      obtain ⟨ys, hres, hall⟩ := ih (init ++ [y]) res h
      exact ⟨y :: ys, by simp [hres], List.Forall₂.cons hx hall⟩

/-- A loop that appends the result of `f` for every element ends without a
fault when `f` succeeds on every element. -/
theorem foldlM_collect {α β : Type} (body : List β → α → Except Fault (List β))
    (f : α → Except Fault β)
    (hok : ∀ acc x y, f x = .ok y → body acc x = .ok (acc ++ [y])) :
    ∀ (l : List α) (init : List β), (∀ x ∈ l, ∃ y, f x = .ok y) →
      ∃ ys, l.foldlM body init = .ok (init ++ ys)
        ∧ List.Forall₂ (fun x y => f x = .ok y) l ys := by
  intro l
  induction l with
  | nil =>
    intro init _
    exact ⟨[], by simp [pure, Except.pure], List.Forall₂.nil⟩
  | cons x l ih =>
    intro init h
    obtain ⟨y, hy⟩ := h x (List.mem_cons_self x l)
    obtain ⟨ys, hres, hall⟩ := ih (init ++ [y]) (fun z hz => h z (List.mem_cons_of_mem x hz))
    refine ⟨y :: ys, ?_, List.Forall₂.cons hy hall⟩
    rw [List.foldlM_cons, hok init x y hy]
    simpa using hres

/-- Results collected element by element, read by index. -/
theorem forall₂_getElem? {α β : Type} {R : α → β → Prop} {l : List α} {ys : List β}
    (h : List.Forall₂ R l ys) (i : Nat) (x : α) (hx : l[i]? = some x) :
    ∃ y, ys[i]? = some y ∧ R x y := by
  induction h generalizing i with
  | nil => simp at hx
  | cons hr _ ih =>
    cases i with
    | zero =>
      simp at hx
      subst hx
      exact ⟨_, by simp, hr⟩
    | succ i =>
      simp at hx
      obtain ⟨y, hy, hR⟩ := ih i hx
      exact ⟨y, by simpa using hy, hR⟩

/-! ## The candidate key and plaintext -/

/-- The loop over the columns appends `columnKey` of every column. -/
theorem candidateKey_body {F : Type} [LinearOrder F] (rt : Runtime F) (data : List Nat)
    (k : Nat) (key : List Nat) (i : Nat) :
    (do
      let block ← transposeLoop data k i []
      let kb ← singleByteXORBruteForce rt block
      pure (key ++ [kb]) : Except Fault (List Nat))
      = (columnKey rt data k i >>= fun kb => pure (key ++ [kb])) := by
  unfold columnKey
  cases transposeLoop data k i [] <;> rfl

/-- Under the contract of the sort, every column of a key size of at least
one has a key byte. -/
theorem columnKey_ok {F : Type} [LinearOrder F] (rt : Runtime F)
    (hsort : SortsBy ScoreSorter.Less (rt.sortSort (α := Result F) ScoreSorter.Less))
    (data : List Nat) (k i : Nat) (hk : 0 < k) :
    ∃ kb, columnKey rt data k i = .ok kb := by
  unfold columnKey
  rw [transposeLoop_column data k i hk]
  obtain ⟨key, _, _, _, hres, _⟩ := bruteForce_head rt hsort
    ((List.range ((data.length - i + k - 1) / k)).map (fun n => data.getD (i + n * k) 0))
  exact ⟨key, hres⟩

/-- Under the contract of the sort, the candidate key of a key size of at
least one is assembled without a fault from the key bytes of the columns
`0 .. k-1`, in order. -/
theorem candidateKey_ok {F : Type} [LinearOrder F] (rt : Runtime F)
    (hsort : SortsBy ScoreSorter.Less (rt.sortSort (α := Result F) ScoreSorter.Less))
    (data : List Nat) (k : Nat) (hk : 0 < k) :
    ∃ key, candidateKey rt data k = .ok key
      ∧ List.Forall₂ (fun i kb => columnKey rt data k i = .ok kb) (List.range k) key := by
  obtain ⟨ys, hres, hall⟩ := foldlM_collect
    (fun key i => do
      let block ← transposeLoop data k i []
      let kb ← singleByteXORBruteForce rt block
      pure (key ++ [kb]))
    (columnKey rt data k)
    (fun acc x y hy => by
      show (do
        let block ← transposeLoop data k x []
        let kb ← singleByteXORBruteForce rt block
        pure (acc ++ [kb]) : Except Fault (List Nat)) = _
      rw [candidateKey_body, hy]
      rfl)
    (List.range k) [] (fun i _ => columnKey_ok rt hsort data k i hk)
  exact ⟨ys, by simpa [candidateKey] using hres, hall⟩

/-- Under the contract of the sort, the candidate result of a key size of
at least one: it is built without a fault, its key has one brute-forced
byte per column, and its plaintext is the data XORed with the repeated key. -/
theorem candidateResult_spec {F : Type} [LinearOrder F] (rt : Runtime F)
    (hsort : SortsBy ScoreSorter.Less (rt.sortSort (α := Result F) ScoreSorter.Less))
    (data : List Nat) (k : Nat) (hk : 1 ≤ k) :
    ∃ r, candidateResult rt data k = .ok r
      ∧ candidateKey rt data k = .ok r.Key
      ∧ r.Key.length = k
      ∧ (∀ i, i < k → ∃ column kb, transposeLoop data k i [] = .ok column
          ∧ singleByteXORBruteForce rt column = .ok kb ∧ r.Key[i]? = some kb)
      ∧ multiByteXOR data r.Key = .ok r.Plaintext
      ∧ r.Plaintext.length = data.length
      ∧ (∀ j, j < data.length → ∃ d kb, data[j]? = some d ∧ r.Key[j % k]? = some kb
          ∧ r.Plaintext[j]? = some (d ^^^ kb))
      ∧ r.Score = getEnglishScore rt r.Plaintext := by
  have hk0 : 0 < k := hk
  obtain ⟨key, hkey, hall⟩ := candidateKey_ok rt hsort data k hk0
  have hlen : key.length = k := by
    have := hall.length_eq
    simpa using this.symm
  have hne : key ≠ [] := by
    intro h
    rw [h] at hlen
    simp at hlen
    omega
  have hpt := multiByteXOR_eq_map data key hne
  refine ⟨{ Key := key, Score := getEnglishScore rt _, Plaintext := _ }, ?_, hkey, hlen, ?_, hpt,
    by simp, ?_, rfl⟩
  · unfold candidateResult
    rw [hkey]
    show (multiByteXOR data key >>= fun plaintext => _) = _
    rw [hpt]
    rfl
  · intro i hi
    obtain ⟨kb, hkb, hcol⟩ := forall₂_getElem? hall i i (by simp [List.getElem?_range hi])
    unfold columnKey at hcol
    rw [transposeLoop_column data k i hk0] at hcol
    exact ⟨_, kb, transposeLoop_column data k i hk0, hcol, hkb⟩
  · intro j hj
    have hmod : j % k < key.length := by rw [hlen]; exact Nat.mod_lt j hk0
    refine ⟨data[j], key[j % k], List.getElem?_eq_getElem hj, ?_, ?_⟩
    · rw [hlen] at hmod ⊢
      exact List.getElem?_eq_getElem (by rw [hlen]; exact hmod)
    · simp only [List.getElem?_map, List.getElem?_range hj, Option.map_some',
        List.getD_eq_getElem?_getD, List.getElem?_eq_getElem hj, hlen]
      rw [List.getElem?_eq_getElem (by rw [hlen]; exact Nat.mod_lt j hk0)]
      simp

/-- C15. Under the contract of the sort, for every ciphertext and every key
size `k >= 1` (every selected key size is one), the candidate result is
built without a fault; its key has length exactly `k` and its `i`-th byte
is `singleByteXORBruteForce` of the column `i` of the data; its plaintext
has the length of the data and `plaintext[j] = data[j] XOR key[j mod k]`
for every `j`; and its score is the score of that plaintext. -/
theorem candidate_key_and_plaintext {F : Type} [LinearOrder F] (rt : Runtime F)
    (hsort : SortsBy ScoreSorter.Less (rt.sortSort (α := Result F) ScoreSorter.Less))
    (data : List Nat) (k : Nat) (hk : 1 ≤ k) :
    ∃ r, candidateResult rt data k = .ok r
      ∧ candidateKey rt data k = .ok r.Key
      ∧ r.Key.length = k
      ∧ (∀ i, i < k → ∃ column kb, transposeLoop data k i [] = .ok column
          ∧ singleByteXORBruteForce rt column = .ok kb ∧ r.Key[i]? = some kb)
      ∧ multiByteXOR data r.Key = .ok r.Plaintext
      ∧ r.Plaintext.length = data.length
      ∧ (∀ j, j < data.length → ∃ d kb, data[j]? = some d ∧ r.Key[j % k]? = some kb
          ∧ r.Plaintext[j]? = some (d ^^^ kb))
      ∧ r.Score = getEnglishScore rt r.Plaintext :=
  candidateResult_spec rt hsort data k hk

/-- Witness of C15: the stable runtime on five bytes and the key size 2. -/
theorem candidate_key_and_plaintext_witness :
    SortsBy ScoreSorter.Less (stableRuntime.sortSort (α := Result Nat) ScoreSorter.Less) ∧ 1 ≤ 2 ∧
      ∃ r, candidateResult stableRuntime [0x28, 0x45, 0x2c, 0x4c, 0x2f] 2 = .ok r
        ∧ candidateKey stableRuntime [0x28, 0x45, 0x2c, 0x4c, 0x2f] 2 = .ok r.Key
        ∧ r.Key.length = 2
        ∧ (∀ i, i < 2 → ∃ column kb,
            transposeLoop [0x28, 0x45, 0x2c, 0x4c, 0x2f] 2 i [] = .ok column
            ∧ singleByteXORBruteForce stableRuntime column = .ok kb ∧ r.Key[i]? = some kb)
        ∧ multiByteXOR [0x28, 0x45, 0x2c, 0x4c, 0x2f] r.Key = .ok r.Plaintext
        ∧ r.Plaintext.length = [0x28, 0x45, 0x2c, 0x4c, 0x2f].length
        ∧ (∀ j, j < [0x28, 0x45, 0x2c, 0x4c, 0x2f].length → ∃ d kb,
            [0x28, 0x45, 0x2c, 0x4c, 0x2f][j]? = some d ∧ r.Key[j % 2]? = some kb
            ∧ r.Plaintext[j]? = some (d ^^^ kb))
        ∧ r.Score = getEnglishScore stableRuntime r.Plaintext :=
  ⟨stableRuntime_sortsBy, by decide,
    candidate_key_and_plaintext stableRuntime stableRuntime_sortsBy
      [0x28, 0x45, 0x2c, 0x4c, 0x2f] 2 (by decide)⟩

/-! ## The key-size estimates of a long ciphertext -/

/-- A chunk that ends within the ciphertext does not depend on the spare
capacity: it is `data[i : i+k]`. -/
theorem chunk_of_data (data spare : List Nat) (k i : Nat) (h : i + k ≤ data.length) :
    ((data ++ spare).drop i).take k = (data.drop i).take k := by
  rw [List.drop_append_of_le_length (by omega), List.take_append_of_le_length (by simp; omega)]

/-- With four chunks within the ciphertext, the chunking loop stores
`data[0:k]`, `data[k:2k]`, `data[2k:3k]` and `data[3k:4k]`. -/
theorem chunkLoop_of_data (data spare : List Nat) (k : Nat) (h : 4 * k ≤ data.length) :
    chunkLoop data spare k 0 0 (List.replicate 4 [])
      = .ok [(data.drop 0).take k, (data.drop k).take k, (data.drop (2 * k)).take k,
          (data.drop (3 * k)).take k] := by
  rw [chunkLoop_four data spare k (by omega) (by omega),
    chunk_of_data data spare k 0 (by omega), chunk_of_data data spare k (0 + k) (by omega),
    chunk_of_data data spare k (0 + k + k) (by omega),
    chunk_of_data data spare k (0 + k + k + k) (by omega)]
  have e1 : 0 + k = k := by omega
  have e2 : 0 + k + k = 2 * k := by omega
  have e3 : 0 + k + k + k = 3 * k := by omega
  rw [e3, e2, e1]

/-- With four chunks within the ciphertext, the six distances exist and the
estimate is their sum divided by 6 and by the key size. -/
theorem keySizeEstimate_of_data {F : Type} (rt : Runtime F) (data spare : List Nat) (k : Nat)
    (h : 4 * k ≤ data.length) :
    ∃ d01 d02 d03 d12 d13 d23,
      hammingDistance ((data.drop 0).take k) ((data.drop k).take k) = .ok d01
      ∧ hammingDistance ((data.drop 0).take k) ((data.drop (2 * k)).take k) = .ok d02
      ∧ hammingDistance ((data.drop 0).take k) ((data.drop (3 * k)).take k) = .ok d03
      ∧ hammingDistance ((data.drop k).take k) ((data.drop (2 * k)).take k) = .ok d12
      ∧ hammingDistance ((data.drop k).take k) ((data.drop (3 * k)).take k) = .ok d13
      ∧ hammingDistance ((data.drop (2 * k)).take k) ((data.drop (3 * k)).take k) = .ok d23
      ∧ sampleDistance data spare k = .ok (d01 + d02 + d03 + d12 + d13 + d23)
      ∧ keySizeEstimate rt data spare k
          = .ok { KeySize := k,
                  Distance := rt.div
                    (rt.div (rt.ofInt (d01 + d02 + d03 + d12 + d13 + d23)) (rt.ofInt 6))
                    (rt.ofInt k) } := by
  obtain ⟨d01, d02, d03, d12, d13, d23, h01, h02, h03, h12, h13, h23, hs⟩ :=
    sampleDistance_four data spare k (by omega) (by omega)
  rw [chunk_of_data data spare k 0 (by omega)] at h01 h02 h03
  rw [chunk_of_data data spare k k (by omega)] at h01 h12 h13
  rw [chunk_of_data data spare k (2 * k) (by omega)] at h02 h12 h23
  rw [chunk_of_data data spare k (3 * k) (by omega)] at h03 h13 h23
  exact ⟨d01, d02, d03, d12, d13, d23, h01, h02, h03, h12, h13, h23, hs,
    keySizeEstimate_of_ok rt data spare k _ hs⟩

/-- The key-size loop appends `keySizeEstimate` of every key size. -/
theorem estimateLoop_collect_of_ok {F : Type} (rt : Runtime F) (data spare : List Nat)
    (ks : List Nat) (init nds : List (keySizeDistance F))
    (h : estimateLoop rt data spare ks init = .ok nds) :
    ∃ ys, nds = init ++ ys
      ∧ List.Forall₂ (fun k e => keySizeEstimate rt data spare k = .ok e) ks ys :=
  foldlM_collect_of_ok _ (keySizeEstimate rt data spare)
    (fun acc x y hy => by
      show (keySizeEstimate rt data spare x >>= fun e => pure (acc ++ [e])) = _
      rw [hy]; rfl)
    (fun acc x e he => by
      show (keySizeEstimate rt data spare x >>= fun e => pure (acc ++ [e])) = _
      rw [he]; rfl)
    ks init nds h

/-- The key-size loop ends without a fault on key sizes whose four chunks
are within the ciphertext. -/
theorem estimateLoop_collect {F : Type} (rt : Runtime F) (data spare : List Nat)
    (ks : List Nat) (init : List (keySizeDistance F)) (h : ∀ k ∈ ks, 4 * k ≤ data.length) :
    ∃ ys, estimateLoop rt data spare ks init = .ok (init ++ ys)
      ∧ List.Forall₂ (fun k e => keySizeEstimate rt data spare k = .ok e) ks ys :=
  foldlM_collect _ (keySizeEstimate rt data spare)
    (fun acc x y hy => by
      show (keySizeEstimate rt data spare x >>= fun e => pure (acc ++ [e])) = _
      rw [hy]; rfl)
    ks init
    (fun k hk => by
      obtain ⟨_, _, _, _, _, _, _, _, _, _, _, _, _, he⟩ :=
        keySizeEstimate_of_data rt data spare k (h k hk)
      exact ⟨_, he⟩)

/-- C12. For every key size `k` in `2 .. 42` and every ciphertext of length
at least `4*k`, the four chunks are `data[0:k]`, `data[k:2k]`,
`data[2k:3k]` and `data[3k:4k]`, their six pairwise Hamming distances
exist, and the estimate for `k` is `(k, d)` with `d` the sum of the six
distances divided by 6 and then by `k`. The key-size loop reaches `k` and
appends that estimate, and a run of the whole loop without a fault holds it
at index `k - 2`. -/
theorem estimate_is_normalized_average {F : Type} (rt : Runtime F) (data spare : List Nat)
    (k : Nat) (hk2 : 2 ≤ k) (hk42 : k ≤ 42) (hlen : 4 * k ≤ data.length) :
    ∃ d01 d02 d03 d12 d13 d23,
      hammingDistance ((data.drop 0).take k) ((data.drop k).take k) = .ok d01
      ∧ hammingDistance ((data.drop 0).take k) ((data.drop (2 * k)).take k) = .ok d02
      ∧ hammingDistance ((data.drop 0).take k) ((data.drop (3 * k)).take k) = .ok d03
      ∧ hammingDistance ((data.drop k).take k) ((data.drop (2 * k)).take k) = .ok d12
      ∧ hammingDistance ((data.drop k).take k) ((data.drop (3 * k)).take k) = .ok d13
      ∧ hammingDistance ((data.drop (2 * k)).take k) ((data.drop (3 * k)).take k) = .ok d23
      ∧ keySizeEstimate rt data spare k
          = .ok { KeySize := k,
                  Distance := rt.div
                    (rt.div (rt.ofInt (d01 + d02 + d03 + d12 + d13 + d23)) (rt.ofInt 6))
                    (rt.ofInt k) }
      ∧ (∃ earlier, estimateLoop rt data spare (List.range' 2 (k - 1)) []
          = .ok (earlier ++
              [keySizeDistance.mk k
                (rt.div (rt.div (rt.ofInt (d01 + d02 + d03 + d12 + d13 + d23)) (rt.ofInt 6))
                  (rt.ofInt k))]))
      ∧ (∀ nds, normalizedDistances rt data spare = .ok nds →
          nds[k - 2]? = some
            (keySizeDistance.mk k
              (rt.div (rt.div (rt.ofInt (d01 + d02 + d03 + d12 + d13 + d23)) (rt.ofInt 6))
                (rt.ofInt k)))) := by
  obtain ⟨d01, d02, d03, d12, d13, d23, h01, h02, h03, h12, h13, h23, _, he⟩ :=
    keySizeEstimate_of_data rt data spare k hlen
  refine ⟨d01, d02, d03, d12, d13, d23, h01, h02, h03, h12, h13, h23, he, ?_, ?_⟩
  · obtain ⟨ys, hys, hall⟩ := estimateLoop_collect rt data spare (List.range' 2 (k - 1)) []
      (fun k' hk' => by
        rw [List.mem_range'_1] at hk'
        omega)
    have hlast : (List.range' 2 (k - 1))[k - 2]? = some k := by
      rw [List.getElem?_range' 2 1 (by omega)]
      congr 1
      omega
    obtain ⟨y, hy, hky⟩ := forall₂_getElem? hall (k - 2) k hlast
    rw [he] at hky
    cases hky
    have hlen' : ys.length = k - 2 + 1 := by
      have := hall.length_eq
      simp at this
      omega
    have hlt : k - 2 < ys.length := by omega
    have hget : ys[k - 2] = keySizeDistance.mk k
        (rt.div (rt.div (rt.ofInt (d01 + d02 + d03 + d12 + d13 + d23)) (rt.ofInt 6))
          (rt.ofInt k)) := by
      have := List.getElem?_eq_getElem hlt
      rw [hy] at this
      exact (Option.some.inj this).symm
    refine ⟨ys.take (k - 2), ?_⟩
    rw [hys, List.nil_append]
    congr 1
    calc ys = ys.take (k - 2) ++ ys.drop (k - 2) := (List.take_append_drop _ _).symm
      _ = _ := by
        rw [List.drop_eq_getElem_cons hlt, List.drop_of_length_le (by omega), hget]
  · intro nds hnds
    obtain ⟨ys, hys, hall⟩ := estimateLoop_collect_of_ok rt data spare (List.range' 2 41) [] nds
      hnds
    have hidx : (List.range' 2 41)[k - 2]? = some k := by
      rw [List.getElem?_range' 2 1 (by omega)]
      congr 1
      omega
    obtain ⟨y, hy, hky⟩ := forall₂_getElem? hall (k - 2) k hidx
    rw [he] at hky
    cases hky
    rw [hys, List.nil_append]
    exact hy

/-- Witness of C12: the stable runtime on sixteen bytes and the key size 4. -/
theorem estimate_is_normalized_average_witness :
    (2 ≤ 4 ∧ 4 ≤ 42 ∧ 4 * 4 ≤ (List.range 16).length) ∧
    ∃ d01 d02 d03 d12 d13 d23,
      hammingDistance (((List.range 16).drop 0).take 4) (((List.range 16).drop 4).take 4)
          = .ok d01
      ∧ hammingDistance (((List.range 16).drop 0).take 4)
          (((List.range 16).drop (2 * 4)).take 4) = .ok d02
      ∧ hammingDistance (((List.range 16).drop 0).take 4)
          (((List.range 16).drop (3 * 4)).take 4) = .ok d03
      ∧ hammingDistance (((List.range 16).drop 4).take 4)
          (((List.range 16).drop (2 * 4)).take 4) = .ok d12
      ∧ hammingDistance (((List.range 16).drop 4).take 4)
          (((List.range 16).drop (3 * 4)).take 4) = .ok d13
      ∧ hammingDistance (((List.range 16).drop (2 * 4)).take 4)
          (((List.range 16).drop (3 * 4)).take 4) = .ok d23
      ∧ keySizeEstimate stableRuntime (List.range 16) [] 4
          = .ok { KeySize := 4,
                  Distance := stableRuntime.div
                    (stableRuntime.div
                      (stableRuntime.ofInt (d01 + d02 + d03 + d12 + d13 + d23))
                      (stableRuntime.ofInt 6))
                    (stableRuntime.ofInt 4) }
      ∧ (∃ earlier, estimateLoop stableRuntime (List.range 16) [] (List.range' 2 (4 - 1)) []
          = .ok (earlier ++
              [keySizeDistance.mk 4
                (stableRuntime.div
                  (stableRuntime.div
                    (stableRuntime.ofInt (d01 + d02 + d03 + d12 + d13 + d23))
                    (stableRuntime.ofInt 6))
                  (stableRuntime.ofInt 4))]))
      ∧ (∀ nds, normalizedDistances stableRuntime (List.range 16) [] = .ok nds →
          nds[4 - 2]? = some
            (keySizeDistance.mk 4
              (stableRuntime.div
                (stableRuntime.div
                  (stableRuntime.ofInt (d01 + d02 + d03 + d12 + d13 + d23))
                  (stableRuntime.ofInt 6))
                (stableRuntime.ofInt 4)))) :=
  ⟨by decide,
    estimate_is_normalized_average stableRuntime (List.range 16) [] 4 (by decide) (by decide)
      (by decide)⟩

/-! ## The run of `breakRepeatingKeyXOR` -/

/-- Results collected element by element: every result belongs to an
element. -/
theorem forall₂_mem_right {α β : Type} {R : α → β → Prop} {l : List α} {ys : List β}
    (h : List.Forall₂ R l ys) (y : β) (hy : y ∈ ys) : ∃ x, x ∈ l ∧ R x y := by
  induction h with
  | nil => cases hy
  | cons hr _ ih =>
    rcases List.mem_cons.mp hy with h1 | h1
    · subst h1
      exact ⟨_, List.mem_cons_self _ _, hr⟩
    · obtain ⟨x, hx, hR⟩ := ih h1
      exact ⟨x, List.mem_cons_of_mem _ hx, hR⟩

/-- Results collected element by element: every element has a result. -/
theorem forall₂_mem_left {α β : Type} {R : α → β → Prop} {l : List α} {ys : List β}
    (h : List.Forall₂ R l ys) (x : α) (hx : x ∈ l) : ∃ y, y ∈ ys ∧ R x y := by
  induction h with
  | nil => cases hx
  | cons hr _ ih =>
    rcases List.mem_cons.mp hx with h1 | h1
    · subst h1
      exact ⟨_, List.mem_cons_self _ _, hr⟩
    · obtain ⟨y, hy, hR⟩ := ih h1
      exact ⟨y, List.mem_cons_of_mem _ hy, hR⟩

/-- `breakRepeatingKeyXOR` is the selection of the key sizes, the loop over
them and the read of the first sorted result. -/
theorem breakRepeatingKeyXOR_eq {F : Type} [LinearOrder F] (rt : Runtime F)
    (data spare : List Nat) :
    breakRepeatingKeyXOR rt data spare
      = (possibleKeySizes rt data spare >>= fun ks =>
          plaintextResults rt data ks >>= fun prs =>
            index (rt.sortSort PTScoreSorter.Less prs) 0) := by
  unfold breakRepeatingKeyXOR possibleKeySizes plaintextResults
  cases normalizedDistances rt data spare with
  | error e => rfl
  | ok nds =>
    by_cases hl : (rt.sortSort distanceSorter.Less nds).length < 3
    · simp [hl, bind, Except.bind, throw, throwThe, MonadExceptOf.throw]
    · simp [hl, bind, Except.bind, pure, Except.pure]

/-- On a ciphertext of at least 168 bytes the key-size loop ends without a
fault, with the estimate of every key size `2 .. 42` in order. -/
theorem normalizedDistances_of_long {F : Type} (rt : Runtime F) (data spare : List Nat)
    (hlen : 168 ≤ data.length) :
    ∃ nds, normalizedDistances rt data spare = .ok nds
      ∧ List.Forall₂ (fun k e => keySizeEstimate rt data spare k = .ok e) (List.range' 2 41) nds
      ∧ nds.length = 41
      ∧ nds.map (fun v => v.KeySize) = List.range' 2 41 := by
  obtain ⟨ys, hys, hall⟩ := estimateLoop_collect rt data spare (List.range' 2 41) []
    (fun k hk => by
      rw [List.mem_range'_1] at hk
      omega)
  rw [List.nil_append] at hys
  refine ⟨ys, hys, hall, ?_, ?_⟩
  · have := hall.length_eq
    simpa using this.symm
  · have := estimateLoop_keySizes rt data spare (List.range' 2 41) [] ys hys
    simpa using this

/-- When the key-size loop has ended without a fault and the sort keeps its
contract, the sorted estimates start with three estimates, whose key sizes
are the possible key sizes. -/
theorem possibleKeySizes_of_sorted {F : Type} [LinearOrder F] (rt : Runtime F)
    (hsort : SortsBy distanceSorter.Less
      (rt.sortSort (α := keySizeDistance F) distanceSorter.Less))
    (data spare : List Nat) (nds : List (keySizeDistance F))
    (hnds : normalizedDistances rt data spare = .ok nds) :
    ∃ e1 e2 e3 rest, rt.sortSort distanceSorter.Less nds = e1 :: e2 :: e3 :: rest
      ∧ possibleKeySizes rt data spare = .ok [e1.KeySize, e2.KeySize, e3.KeySize] := by
  have hmap := estimateLoop_keySizes rt data spare (List.range' 2 41) [] nds hnds
  have hlen : nds.length = 41 := by
    have := congrArg List.length hmap
    simpa using this
  have hslen : (rt.sortSort distanceSorter.Less nds).length = 41 := by
    rw [(hsort nds).1.length_eq, hlen]
  match hs : rt.sortSort distanceSorter.Less nds with
  | [] => rw [hs] at hslen; simp at hslen
  | [_] => rw [hs] at hslen; simp at hslen
  | [_, _] => rw [hs] at hslen; simp at hslen
  | e1 :: e2 :: e3 :: rest =>
    refine ⟨e1, e2, e3, rest, rfl, ?_⟩
    unfold possibleKeySizes
    rw [hnds]
    simp [hs, bind, Except.bind, pure, Except.pure]

/-- Under the contract of the sort, the loop over key sizes of at least one
builds one candidate result per key size, in order. -/
theorem plaintextResults_ok {F : Type} [LinearOrder F] (rt : Runtime F)
    (hsort : SortsBy ScoreSorter.Less (rt.sortSort (α := Result F) ScoreSorter.Less))
    (data : List Nat) (ks : List Nat) (hks : ∀ k ∈ ks, 1 ≤ k) :
    ∃ prs, plaintextResults rt data ks = .ok prs
      ∧ List.Forall₂ (fun k r => candidateResult rt data k = .ok r) ks prs := by
  obtain ⟨ys, hys, hall⟩ := foldlM_collect
    (fun results keySize => do
      let r ← candidateResult rt data keySize
      pure (results ++ [r]))
    (candidateResult rt data)
    (fun acc x y hy => by
      show (candidateResult rt data x >>= fun r => pure (acc ++ [r])) = _
      rw [hy]; rfl)
    ks []
    (fun k hk => by
      obtain ⟨r, hr, _⟩ := candidateResult_spec rt hsort data k (hks k hk)
      exact ⟨r, hr⟩)
  exact ⟨ys, by simpa [plaintextResults] using hys, hall⟩

/-- What "not `Less`" means for `distanceSorter`. -/
theorem distanceSorter_not_less {F : Type} [LinearOrder F] (a b : keySizeDistance F)
    (h : distanceSorter.Less b a = false) : a.Distance ≤ b.Distance := by
  unfold distanceSorter.Less at h
  exact not_lt.mp (of_decide_eq_false h)

/-- The selection of the possible key sizes on a ciphertext of at least 168
bytes, under the contract of the sort: the sorted estimates start with three
estimates of distinct key sizes in `2 .. 42`, in ascending order of
distance, and the estimate of every other key size comes after them and has
a distance that is not smaller. -/
theorem sorted_estimates_spec {F : Type} [LinearOrder F] (rt : Runtime F)
    (hsort : SortsBy distanceSorter.Less
      (rt.sortSort (α := keySizeDistance F) distanceSorter.Less))
    (data spare : List Nat) (hlen : 168 ≤ data.length) :
    ∃ nds e1 e2 e3 rest, normalizedDistances rt data spare = .ok nds
      ∧ rt.sortSort distanceSorter.Less nds = e1 :: e2 :: e3 :: rest
      ∧ possibleKeySizes rt data spare = .ok [e1.KeySize, e2.KeySize, e3.KeySize]
      ∧ (e1.KeySize ≠ e2.KeySize ∧ e1.KeySize ≠ e3.KeySize ∧ e2.KeySize ≠ e3.KeySize)
      ∧ (∀ e, e ∈ [e1, e2, e3] → 2 ≤ e.KeySize ∧ e.KeySize ≤ 42
          ∧ keySizeEstimate rt data spare e.KeySize = .ok e)
      ∧ e1.Distance ≤ e2.Distance ∧ e2.Distance ≤ e3.Distance
      ∧ (∀ k, 2 ≤ k → k ≤ 42 → k ≠ e1.KeySize → k ≠ e2.KeySize → k ≠ e3.KeySize →
          ∃ e, keySizeEstimate rt data spare k = .ok e ∧ e ∈ rest
            ∧ e1.Distance ≤ e.Distance ∧ e2.Distance ≤ e.Distance
            ∧ e3.Distance ≤ e.Distance) := by
  obtain ⟨nds, hnds, hall, _, hmap⟩ := normalizedDistances_of_long rt data spare hlen
  obtain ⟨e1, e2, e3, rest, hs, hpk⟩ := possibleKeySizes_of_sorted rt hsort data spare nds hnds
  have hperm := (hsort nds).1
  have hpair := (hsort nds).2
  rw [hs] at hperm hpair
  have hfact : ∀ e, e ∈ nds → 2 ≤ e.KeySize ∧ e.KeySize ≤ 42
      ∧ keySizeEstimate rt data spare e.KeySize = .ok e := by
    intro e he
    obtain ⟨k, hk, hke⟩ := forall₂_mem_right hall e he
    have hkk := keySizeEstimate_keySize rt data spare k e hke
    rw [List.mem_range'_1] at hk
    rw [hkk]
    exact ⟨by omega, by omega, hke⟩
  have hnodup : ((e1 :: e2 :: e3 :: rest).map (fun v => v.KeySize)).Nodup := by
    rw [(hperm.map _).nodup_iff, hmap]
    exact List.nodup_range' 2 41
  simp only [List.map_cons, List.nodup_cons, List.mem_cons, List.mem_map, not_or] at hnodup
  obtain ⟨⟨h12, h13, _⟩, ⟨h23, _⟩, _⟩ := hnodup
  obtain ⟨hp1, hpair2⟩ := List.pairwise_cons.mp hpair
  obtain ⟨hp2, hpair3⟩ := List.pairwise_cons.mp hpair2
  obtain ⟨hp3, _⟩ := List.pairwise_cons.mp hpair3
  refine ⟨nds, e1, e2, e3, rest, hnds, hs, hpk, ⟨h12, h13, h23⟩, ?_, ?_, ?_, ?_⟩
  · intro e he
    apply hfact e
    apply hperm.subset
    simp only [List.mem_cons, List.mem_singleton, List.not_mem_nil, or_false] at he
    rcases he with h | h | h <;> simp [h]
  · exact distanceSorter_not_less _ _ (hp1 e2 (by simp))
  · exact distanceSorter_not_less _ _ (hp2 e3 (by simp))
  · intro k hk2 hk42 hn1 hn2 hn3
    obtain ⟨e, he, hke⟩ := forall₂_mem_left hall k (by rw [List.mem_range'_1]; omega)
    have hkk := keySizeEstimate_keySize rt data spare k e hke
    have hmem : e ∈ e1 :: e2 :: e3 :: rest := hperm.symm.subset he
    simp only [List.mem_cons] at hmem
    rcases hmem with h | h | h | h
    · exact absurd (h ▸ hkk).symm hn1
    · exact absurd (h ▸ hkk).symm hn2
    · exact absurd (h ▸ hkk).symm hn3
    · exact ⟨e, hke, h, distanceSorter_not_less _ _ (hp1 e (by simp [h])),
        distanceSorter_not_less _ _ (hp2 e (by simp [h])),
        distanceSorter_not_less _ _ (hp3 e h)⟩

/-- C13. Under the contract of the sort, for every ciphertext of at least
168 bytes the three candidate key sizes selected by `breakRepeatingKeyXOR`
are three distinct values in `2 .. 42`, listed in ascending order of
normalized distance, and every key size in `2 .. 42` that is not selected
has a normalized distance greater than or equal to that of each selected
one. -/
theorem possible_key_sizes_smallest {F : Type} [LinearOrder F] (rt : Runtime F)
    (hsort : SortsBy distanceSorter.Less
      (rt.sortSort (α := keySizeDistance F) distanceSorter.Less))
    (data spare : List Nat) (hlen : 168 ≤ data.length) :
    ∃ nds e1 e2 e3 rest, normalizedDistances rt data spare = .ok nds
      ∧ rt.sortSort distanceSorter.Less nds = e1 :: e2 :: e3 :: rest
      ∧ possibleKeySizes rt data spare = .ok [e1.KeySize, e2.KeySize, e3.KeySize]
      ∧ (e1.KeySize ≠ e2.KeySize ∧ e1.KeySize ≠ e3.KeySize ∧ e2.KeySize ≠ e3.KeySize)
      ∧ (∀ e, e ∈ [e1, e2, e3] → 2 ≤ e.KeySize ∧ e.KeySize ≤ 42
          ∧ keySizeEstimate rt data spare e.KeySize = .ok e)
      ∧ e1.Distance ≤ e2.Distance ∧ e2.Distance ≤ e3.Distance
      ∧ (∀ k, 2 ≤ k → k ≤ 42 → k ≠ e1.KeySize → k ≠ e2.KeySize → k ≠ e3.KeySize →
          ∃ e, keySizeEstimate rt data spare k = .ok e ∧ e ∈ rest
            ∧ e1.Distance ≤ e.Distance ∧ e2.Distance ≤ e.Distance
            ∧ e3.Distance ≤ e.Distance) :=
  sorted_estimates_spec rt hsort data spare hlen

/-- The possible key sizes, whenever they are selected under the contract of
the sort: three distinct key sizes in `2 .. 42`. -/
theorem possibleKeySizes_inv {F : Type} [LinearOrder F] (rt : Runtime F)
    (hsort : SortsBy distanceSorter.Less
      (rt.sortSort (α := keySizeDistance F) distanceSorter.Less))
    (data spare : List Nat) (ks : List Nat) (hks : possibleKeySizes rt data spare = .ok ks) :
    ks.length = 3 ∧ ks.Nodup ∧ ∀ k ∈ ks, 2 ≤ k ∧ k ≤ 42 := by
  cases hnds : normalizedDistances rt data spare with
  | error e =>
    unfold possibleKeySizes at hks
    rw [hnds] at hks
    cases hks
  | ok nds =>
    obtain ⟨e1, e2, e3, rest, hs, hpk⟩ :=
      possibleKeySizes_of_sorted rt hsort data spare nds hnds
    rw [hpk] at hks
    cases hks
    have hmap := estimateLoop_keySizes rt data spare (List.range' 2 41) [] nds hnds
    simp only [List.map_nil, List.nil_append] at hmap
    have hperm := (hsort nds).1
    rw [hs] at hperm
    have hpm := hperm.map (fun v => v.KeySize)
    rw [hmap] at hpm
    have hnodup : ((e1 :: e2 :: e3 :: rest).map (fun v => v.KeySize)).Nodup :=
      hpm.nodup_iff.mpr (List.nodup_range' 2 41)
    have hsub : List.Sublist [e1.KeySize, e2.KeySize, e3.KeySize]
        ((e1 :: e2 :: e3 :: rest).map (fun v => v.KeySize)) := by
      simp
    refine ⟨rfl, hnodup.sublist hsub, ?_⟩
    intro k hk
    have hk' : k ∈ List.range' 2 41 := hpm.subset (hsub.subset hk)
    rw [List.mem_range'_1] at hk'
    omega

/-- Two elements read at ascending indices form a sublist. -/
theorem pair_sublist_of_getElem? {α : Type} :
    ∀ (l : List α) (j i : Nat) (a b : α), j < i → l[j]? = some a → l[i]? = some b →
      List.Sublist [a, b] l := by
  intro l
  induction l with
  | nil => intro j i a b _ ha _; simp at ha
  | cons x xs ih =>
    intro j i a b hji ha hb
    cases i with
    | zero => omega
    | succ i =>
      simp only [List.getElem?_cons_succ] at hb
      cases j with
      | zero =>
        simp only [List.getElem?_cons_zero, Option.some.injEq] at ha
        subst ha
        exact List.Sublist.cons₂ _ (List.singleton_sublist.mpr (List.getElem?_mem hb))
      | succ j =>
        simp only [List.getElem?_cons_succ] at ha
        exact List.Sublist.cons _ (ih j i a b (by omega) ha hb)

/-- What "not `Less`" means for `PTScoreSorter`. -/
theorem ptScoreSorter_not_less {F : Type} [LinearOrder F] (a b : PlaintextResult F)
    (h : PTScoreSorter.Less b a = false) : b.Score ≤ a.Score := by
  unfold PTScoreSorter.Less at h
  exact not_lt.mp (of_decide_eq_false h)

/-- The first result of a sorted non-empty slice of results: it has the
highest score, and under a stable sort of a slice without repetition it is
the first result of the slice with that score. -/
theorem reported_result {F : Type} [LinearOrder F] (rt : Runtime F)
    (hsort : SortsBy PTScoreSorter.Less
      (rt.sortSort (α := PlaintextResult F) PTScoreSorter.Less))
    (prs : List (PlaintextResult F)) (hne : prs ≠ []) :
    ∃ r rest, rt.sortSort PTScoreSorter.Less prs = r :: rest
      ∧ index (rt.sortSort PTScoreSorter.Less prs) 0 = .ok r
      ∧ (∀ r', r' ∈ prs → r'.Score ≤ r.Score)
      ∧ ∃ i, prs[i]? = some r
        ∧ (prs.Nodup →
            StableUpTo prs.length PTScoreSorter.Less
              (rt.sortSort (α := PlaintextResult F) PTScoreSorter.Less) →
            ∀ (j : Nat) (r' : PlaintextResult F), j < i → prs[j]? = some r' →
              r'.Score < r.Score) := by
  obtain ⟨hperm, hpair⟩ := hsort prs
  cases hs : rt.sortSort PTScoreSorter.Less prs with
  | nil =>
    rw [hs] at hperm
    exact absurd hperm.symm.eq_nil hne
  | cons r rest =>
    rw [hs] at hperm hpair
    have hmax : ∀ r', r' ∈ prs → r'.Score ≤ r.Score := by
      intro r' hr'
      rcases List.mem_cons.mp (hperm.symm.subset hr') with h | h
      · rw [h]
      · exact ptScoreSorter_not_less _ _ ((List.pairwise_cons.mp hpair).1 r' h)
    obtain ⟨i, hi⟩ := List.mem_iff_getElem?.mp (hperm.subset (List.mem_cons_self r rest))
    refine ⟨r, rest, rfl, index_cons_zero r rest, hmax, i, hi, ?_⟩
    intro hnodup hstable j r' hji hj
    by_contra hcon
    have hle : r.Score ≤ r'.Score := not_lt.mp hcon
    have hless : PTScoreSorter.Less r r' = false := by
      unfold PTScoreSorter.Less
      exact decide_eq_false (not_lt.mpr hle)
    have hsub := hstable prs (le_refl _) r' r (pair_sublist_of_getElem? prs j i r' r hji hj hi)
      hless
    rw [hs] at hsub
    have hnd : (r :: rest).Nodup := hperm.nodup_iff.mpr hnodup
    have hnot : r ∉ rest := (List.nodup_cons.mp hnd).1
    cases hsub with
    | cons _ h => exact hnot (h.subset (by simp))
    | cons₂ _ h => exact hnot (h.subset (by simp))

/-- C11. Under the contract of the sort, `breakRepeatingKeyXOR` runs without
a fault on every ciphertext of at least 168 bytes: for every key size `k` in
`2 .. 42` the four chunk slices end within the ciphertext and are
`data[0:k]`, `data[k:2k]`, `data[2k:3k]`, `data[3k:4k]`, all of length `k`,
so that every call of `hammingDistance` succeeds; exactly 41 estimates, one
per key size `2 .. 42`, are recorded, so that taking the first three is in
bounds; and a result is produced. -/
theorem long_ciphertext_no_fault {F : Type} [LinearOrder F] (rt : Runtime F)
    (hsortD : SortsBy distanceSorter.Less
      (rt.sortSort (α := keySizeDistance F) distanceSorter.Less))
    (hsortS : SortsBy ScoreSorter.Less (rt.sortSort (α := Result F) ScoreSorter.Less))
    (hsortP : SortsBy PTScoreSorter.Less
      (rt.sortSort (α := PlaintextResult F) PTScoreSorter.Less))
    (data spare : List Nat) (hlen : 168 ≤ data.length) :
    (∀ k, 2 ≤ k → k ≤ 42 →
        4 * k ≤ data.length
        ∧ chunkLoop data spare k 0 0 (List.replicate 4 [])
            = .ok [(data.drop 0).take k, (data.drop k).take k, (data.drop (2 * k)).take k,
                (data.drop (3 * k)).take k]
        ∧ (∀ c, c ∈ [(data.drop 0).take k, (data.drop k).take k, (data.drop (2 * k)).take k,
                (data.drop (3 * k)).take k] → c.length = k)
        ∧ (∃ d, sampleDistance data spare k = .ok d)
        ∧ ∃ e, keySizeEstimate rt data spare k = .ok e)
      ∧ (∃ nds, normalizedDistances rt data spare = .ok nds
          ∧ nds.length = 41
          ∧ nds.map (fun v => v.KeySize) = List.range' 2 41
          ∧ 3 ≤ (rt.sortSort distanceSorter.Less nds).length)
      ∧ (∃ ks prs, possibleKeySizes rt data spare = .ok ks ∧ ks.length = 3
          ∧ plaintextResults rt data ks = .ok prs ∧ prs.length = 3)
      ∧ ∃ r, breakRepeatingKeyXOR rt data spare = .ok r := by
  obtain ⟨nds, e1, e2, e3, rest, hnds, hs, hpk, _⟩ :=
    sorted_estimates_spec rt hsortD data spare hlen
  obtain ⟨hkl, _, hrange⟩ := possibleKeySizes_inv rt hsortD data spare _ hpk
  have hpos : ∀ k ∈ [e1.KeySize, e2.KeySize, e3.KeySize], 1 ≤ k :=
    fun k hk => by have := hrange k hk; omega
  obtain ⟨prs, hprs, hall⟩ := plaintextResults_ok rt hsortS data _ hpos
  have hplen : prs.length = 3 := by rw [← hall.length_eq, hkl]
  have hne : prs ≠ [] := by
    intro h
    rw [h] at hplen
    simp at hplen
  obtain ⟨r, _, _, hidx, _⟩ := reported_result rt hsortP prs hne
  refine ⟨?_, ?_, ⟨_, prs, hpk, hkl, hprs, hplen⟩, r, ?_⟩
  · intro k hk2 hk42
    have h4 : 4 * k ≤ data.length := by omega
    obtain ⟨_, _, _, _, _, _, _, _, _, _, _, _, hsd, hke⟩ :=
      keySizeEstimate_of_data rt data spare k h4
    refine ⟨h4, chunkLoop_of_data data spare k h4, ?_, ⟨_, hsd⟩, ⟨_, hke⟩⟩
    intro c hc
    simp only [List.mem_cons, List.mem_singleton, List.not_mem_nil, or_false] at hc
    rcases hc with h | h | h | h <;> rw [h] <;> simp <;> omega
  · refine ⟨nds, hnds, ?_, ?_, ?_⟩
    · have := congrArg List.length
        (estimateLoop_keySizes rt data spare (List.range' 2 41) [] nds hnds)
      simpa using this
    · simpa using estimateLoop_keySizes rt data spare (List.range' 2 41) [] nds hnds
    · rw [hs]
      simp
  · rw [breakRepeatingKeyXOR_eq, hpk]
    show (plaintextResults rt data _ >>= fun prs => _) = _
    rw [hprs]
    exact hidx

/-! ## The stable runtime keeps the contracts of the three sorts -/

/-- The sort of `stableRuntime` keeps the contract for `distanceSorter`. -/
theorem stableRuntime_sortsBy_distance :
    SortsBy distanceSorter.Less
      (stableRuntime.sortSort (α := keySizeDistance Nat) distanceSorter.Less) :=
  stableSort_sortsBy distanceSorter.Less
    (fun a b => by
      unfold distanceSorter.Less
      rcases le_total a.Distance b.Distance with h | h
      · left; exact decide_eq_false (not_lt.mpr h)
      · right; exact decide_eq_false (not_lt.mpr h))
    (fun a b c h1 h2 => by
      unfold distanceSorter.Less at *
      have h1' := not_lt.mp (of_decide_eq_false h1)
      have h2' := not_lt.mp (of_decide_eq_false h2)
      exact decide_eq_false (not_lt.mpr (le_trans h1' h2')))

/-- The sort of `stableRuntime` keeps the contract for `PTScoreSorter`. -/
theorem stableRuntime_sortsBy_plaintext :
    SortsBy PTScoreSorter.Less
      (stableRuntime.sortSort (α := PlaintextResult Nat) PTScoreSorter.Less) :=
  stableSort_sortsBy PTScoreSorter.Less
    (fun a b => by
      unfold PTScoreSorter.Less
      rcases le_total a.Score b.Score with h | h
      · right; exact decide_eq_false (not_lt.mpr h)
      · left; exact decide_eq_false (not_lt.mpr h))
    (fun a b c h1 h2 => by
      unfold PTScoreSorter.Less at *
      have h1' := not_lt.mp (of_decide_eq_false h1)
      have h2' := not_lt.mp (of_decide_eq_false h2)
      exact decide_eq_false (not_lt.mpr (le_trans h2' h1')))

/-- Witness of C11: the stable runtime on 168 zero bytes. -/
theorem long_ciphertext_no_fault_witness :
    (SortsBy distanceSorter.Less
        (stableRuntime.sortSort (α := keySizeDistance Nat) distanceSorter.Less)
      ∧ SortsBy ScoreSorter.Less (stableRuntime.sortSort (α := Result Nat) ScoreSorter.Less)
      ∧ SortsBy PTScoreSorter.Less
        (stableRuntime.sortSort (α := PlaintextResult Nat) PTScoreSorter.Less)
      ∧ 168 ≤ zeros168.length)
    ∧ ((∀ k, 2 ≤ k → k ≤ 42 →
        4 * k ≤ zeros168.length
        ∧ chunkLoop zeros168 [] k 0 0 (List.replicate 4 [])
            = .ok [(zeros168.drop 0).take k, (zeros168.drop k).take k,
                (zeros168.drop (2 * k)).take k, (zeros168.drop (3 * k)).take k]
        ∧ (∀ c, c ∈ [(zeros168.drop 0).take k, (zeros168.drop k).take k,
                (zeros168.drop (2 * k)).take k, (zeros168.drop (3 * k)).take k] →
              c.length = k)
        ∧ (∃ d, sampleDistance zeros168 [] k = .ok d)
        ∧ ∃ e, keySizeEstimate stableRuntime zeros168 [] k = .ok e)
      ∧ (∃ nds, normalizedDistances stableRuntime zeros168 [] = .ok nds
          ∧ nds.length = 41
          ∧ nds.map (fun v => v.KeySize) = List.range' 2 41
          ∧ 3 ≤ (stableRuntime.sortSort distanceSorter.Less nds).length)
      ∧ (∃ ks prs, possibleKeySizes stableRuntime zeros168 [] = .ok ks ∧ ks.length = 3
          ∧ plaintextResults stableRuntime zeros168 ks = .ok prs ∧ prs.length = 3)
      ∧ ∃ r, breakRepeatingKeyXOR stableRuntime zeros168 [] = .ok r) :=
  ⟨⟨stableRuntime_sortsBy_distance, stableRuntime_sortsBy, stableRuntime_sortsBy_plaintext,
      by unfold zeros168; rw [List.length_replicate]⟩,
    long_ciphertext_no_fault stableRuntime stableRuntime_sortsBy_distance stableRuntime_sortsBy
      stableRuntime_sortsBy_plaintext zeros168 []
      (by unfold zeros168; rw [List.length_replicate])⟩

/-- Witness of C13: the stable runtime on 168 zero bytes. -/
theorem possible_key_sizes_smallest_witness :
    (SortsBy distanceSorter.Less
        (stableRuntime.sortSort (α := keySizeDistance Nat) distanceSorter.Less)
      ∧ 168 ≤ zeros168.length)
    ∧ ∃ nds e1 e2 e3 rest, normalizedDistances stableRuntime zeros168 [] = .ok nds
      ∧ stableRuntime.sortSort distanceSorter.Less nds = e1 :: e2 :: e3 :: rest
      ∧ possibleKeySizes stableRuntime zeros168 [] = .ok [e1.KeySize, e2.KeySize, e3.KeySize]
      ∧ (e1.KeySize ≠ e2.KeySize ∧ e1.KeySize ≠ e3.KeySize ∧ e2.KeySize ≠ e3.KeySize)
      ∧ (∀ e, e ∈ [e1, e2, e3] → 2 ≤ e.KeySize ∧ e.KeySize ≤ 42
          ∧ keySizeEstimate stableRuntime zeros168 [] e.KeySize = .ok e)
      ∧ e1.Distance ≤ e2.Distance ∧ e2.Distance ≤ e3.Distance
      ∧ (∀ k, 2 ≤ k → k ≤ 42 → k ≠ e1.KeySize → k ≠ e2.KeySize → k ≠ e3.KeySize →
          ∃ e, keySizeEstimate stableRuntime zeros168 [] k = .ok e ∧ e ∈ rest
            ∧ e1.Distance ≤ e.Distance ∧ e2.Distance ≤ e.Distance
            ∧ e3.Distance ≤ e.Distance) :=
  ⟨⟨stableRuntime_sortsBy_distance, by unfold zeros168; rw [List.length_replicate]⟩,
    possible_key_sizes_smallest stableRuntime stableRuntime_sortsBy_distance zeros168 []
      (by unfold zeros168; rw [List.length_replicate])⟩

/-- The score is the fold of the terms over the entries that the loop
visits. -/
theorem getEnglishScore_eq_terms {F : Type} (rt : Runtime F) (data : List Nat) :
    getEnglishScore rt data
      = (rt.mapRange (countBytes (rt.toLower data))).foldl
          (fun score bc => rt.add score (scoreTerm rt data.length bc)) rt.zero :=
  rfl

/-- The score adds the square root of the quotient of every division of
`scoreDivisions`, in order: these are the divisions of the computation. -/
theorem getEnglishScore_eq_divisions {F : Type} (rt : Runtime F) (data : List Nat) :
    getEnglishScore rt data
      = (scoreDivisions rt data).foldl
          (fun score nd => rt.add score (rt.sqrt (rt.div nd.1 nd.2))) rt.zero := by
  unfold scoreDivisions
  rw [List.foldl_map]
  rfl

/-- C17. `getEnglishScore` of the empty byte sequence is the zero value, and
computing it performs no division: the loop over the counts, which holds
the only division, visits no entry (`bytes.ToLower` of nothing is nothing
and a `range` over an empty map visits nothing). -/
theorem getEnglishScore_nil {F : Type} (rt : Runtime F) (hlower : rt.toLower [] = [])
    (hrange : rt.mapRange [] = []) :
    getEnglishScore rt [] = rt.zero
      ∧ scoreDivisions rt [] = []
      ∧ ∀ data, getEnglishScore rt data
          = (scoreDivisions rt data).foldl
              (fun score nd => rt.add score (rt.sqrt (rt.div nd.1 nd.2))) rt.zero := by
  have hd : scoreDivisions rt [] = [] := by
    unfold scoreDivisions
    rw [hlower]
    show (rt.mapRange []).map _ = []
    rw [hrange]
    rfl
  refine ⟨?_, hd, getEnglishScore_eq_divisions rt⟩
  rw [getEnglishScore_eq_divisions, hd]
  rfl

/-- Witness of C17: the stable runtime. -/
theorem getEnglishScore_nil_witness :
    (stableRuntime.toLower [] = [] ∧ stableRuntime.mapRange [] = [])
      ∧ (getEnglishScore stableRuntime [] = stableRuntime.zero
        ∧ scoreDivisions stableRuntime [] = []
        ∧ ∀ data, getEnglishScore stableRuntime data
            = (scoreDivisions stableRuntime data).foldl
                (fun score nd =>
                  stableRuntime.add score (stableRuntime.sqrt (stableRuntime.div nd.1 nd.2)))
                stableRuntime.zero) :=
  ⟨⟨rfl, rfl⟩, getEnglishScore_nil stableRuntime rfl rfl⟩

/-! ## The counts -/

/-- Under the invariant, a byte already seen reads its number of
occurrences, which is not zero, and has an entry. -/
theorem mapGet_of_mem (res : List (Nat × Nat)) (pre : List Nat) (v : Nat)
    (hinv : CountInv res pre) (hv : v ∈ pre) :
    mapGet res v = pre.count v ∧ mapGet res v ≠ 0
      ∧ res.any (fun e => decide (e.1 = v)) = true := by
  obtain ⟨_, h2, h3⟩ := hinv
  obtain ⟨e, he, hev⟩ := h3 v hv
  have hany : res.any (fun e => decide (e.1 = v)) = true :=
    List.any_eq_true.mpr ⟨e, he, by simp [hev]⟩
  have hpos : 0 < pre.count v := List.count_pos_iff.mpr hv
  unfold mapGet
  cases hf : res.find? (fun e => decide (e.1 = v)) with
  | none =>
    rw [List.find?_eq_none] at hf
    exact absurd (by simp [hev]) (hf e he)
  | some e' =>
    have hp := List.find?_some hf
    have hmem := List.mem_of_find?_eq_some hf
    have he'v : e'.1 = v := by simpa using hp
    have := (h2 e' hmem).2
    rw [he'v] at this
    simp only
    exact ⟨this, by omega, hany⟩

/-- Under the invariant, a byte not seen yet reads zero and has no entry. -/
theorem mapGet_of_not_mem (res : List (Nat × Nat)) (pre : List Nat) (v : Nat)
    (hinv : CountInv res pre) (hv : v ∉ pre) :
    mapGet res v = 0 ∧ res.any (fun e => decide (e.1 = v)) = false := by
  obtain ⟨_, h2, _⟩ := hinv
  have hno : ∀ e, e ∈ res → ¬ (decide (e.1 = v) = true) := by
    intro e he hev
    have : e.1 = v := by simpa using hev
    exact hv (this ▸ (h2 e he).1)
  constructor
  · unfold mapGet
    rw [List.find?_eq_none.mpr hno]
  · exact List.any_eq_false.mpr hno

/-- One iteration of the loop of `countBytes` keeps the invariant. -/
theorem countInv_step (res : List (Nat × Nat)) (pre : List Nat) (v : Nat)
    (hinv : CountInv res pre) :
    CountInv
      (if mapGet res v ≠ 0 then mapSet res v (mapGet res v + 1) else mapSet res v 1)
      (pre ++ [v]) := by
  by_cases hv : v ∈ pre
  · obtain ⟨hget, hne, hany⟩ := mapGet_of_mem res pre v hinv hv
    obtain ⟨h1, h2, h3⟩ := hinv
    rw [if_pos hne]
    unfold mapSet
    rw [if_pos hany, hget]
    have hfst : ∀ e : Nat × Nat,
        (if e.1 = v then (v, pre.count v + 1) else e).1 = e.1 := by
      intro e
      by_cases h : e.1 = v <;> simp [h]
    refine ⟨?_, ?_, ?_⟩
    · rw [List.map_map]
      have : (Prod.fst ∘ fun e : Nat × Nat => if e.1 = v then (v, pre.count v + 1) else e)
          = Prod.fst := by
        funext e
        exact hfst e
      rw [this]
      exact h1
    · intro e' he'
      obtain ⟨e, he, rfl⟩ := List.mem_map.mp he'
      by_cases h : e.1 = v
      · simp [h]
      · simp only [if_neg h]
        refine ⟨List.mem_append_left _ (h2 e he).1, ?_⟩
        rw [List.count_append, (h2 e he).2, List.count_singleton]
        have : (v == e.1) = false := by simpa using fun h' => h h'.symm
        simp [this]
    · intro b hb
      have hb' : b ∈ pre := by
        rcases List.mem_append.mp hb with h | h
        · exact h
        · simp at h
          exact h ▸ hv
      obtain ⟨e, he, heb⟩ := h3 b hb'
      exact ⟨_, List.mem_map.mpr ⟨e, he, rfl⟩, by rw [hfst e, heb]⟩
  · obtain ⟨hget, hany⟩ := mapGet_of_not_mem res pre v hinv hv
    obtain ⟨h1, h2, h3⟩ := hinv
    rw [if_neg (by simp [hget])]
    unfold mapSet
    rw [hany]
    simp only [Bool.false_eq_true, if_false]
    refine ⟨?_, ?_, ?_⟩
    · rw [List.map_append, List.map_cons, List.map_nil]
      apply List.Nodup.append h1 (List.nodup_singleton v)
      intro b hb hb'
      simp at hb'
      subst hb'
      obtain ⟨e, he, heb⟩ := List.mem_map.mp hb
      exact hv (heb ▸ (h2 e he).1)
    · intro e he
      rcases List.mem_append.mp he with h | h
      · refine ⟨List.mem_append_left _ (h2 e h).1, ?_⟩
        rw [List.count_append, (h2 e h).2, List.count_singleton]
        have : (v == e.1) = false := by
          simpa using fun h' : v = e.1 => hv (h' ▸ (h2 e h).1)
        simp [this]
      · simp at h
        subst h
        simp [List.count_eq_zero_of_not_mem hv]
    · intro b hb
      rcases List.mem_append.mp hb with h | h
      · obtain ⟨e, he, heb⟩ := h3 b h
        exact ⟨e, List.mem_append_left _ he, heb⟩
      · simp at h
        subst h
        exact ⟨(b, 1), by simp, rfl⟩

/-- The loop of `countBytes` keeps the invariant. -/
theorem countInv_foldl :
    ∀ (l : List Nat) (res : List (Nat × Nat)) (pre : List Nat), CountInv res pre →
      CountInv
        (l.foldl
          (fun res v =>
            if mapGet res v ≠ 0 then mapSet res v (mapGet res v + 1) else mapSet res v 1)
          res)
        (pre ++ l) := by
  intro l
  induction l with
  | nil => intro res pre h; simpa using h
  | cons v l ih =>
    intro res pre h
    have := ih _ (pre ++ [v]) (countInv_step res pre v h)
    simpa using this

/-- The counts of a byte sequence: one entry per distinct byte, holding its
number of occurrences. -/
theorem countBytes_spec (l : List Nat) : CountInv (countBytes l) l := by
  have := countInv_foldl l [] [] ⟨by simp, by simp, by simp⟩
  simpa [countBytes] using this

set_option maxRecDepth 100000 in
/-- The keys of `FrequencyTable` are the space and the 26 lower-case ASCII
letters. -/
theorem isTableByte_iff (b : Nat) :
    isTableByte b = true ↔ (b = 32 ∨ (97 ≤ b ∧ b ≤ 122)) := by
  by_cases hb : b < 256
  · revert b
    decide
  · have hnone : frequencyEntries.find? (fun e => decide (e.1.toNat = b)) = none := by
      rw [List.find?_eq_none]
      intro e he
      have hlt : e.1.toNat < 256 := by
        revert e
        decide
      simp only [decide_eq_true_eq]
      omega
    unfold isTableByte
    rw [hnone]
    simp
    omega

/-- A byte that is no key of `FrequencyTable` reads the zero value. -/
theorem FrequencyTable_of_not_table {F : Type} (rt : Runtime F) (b : Nat)
    (h : isTableByte b = false) : FrequencyTable rt b = rt.zero := by
  unfold isTableByte at h
  unfold FrequencyTable
  cases hf : frequencyEntries.find? (fun e => decide (e.1.toNat = b)) with
  | none => rfl
  | some e =>
    rw [hf] at h
    simp at h

/-- The term of a byte that is no key of `FrequencyTable` is zero. -/
theorem scoreTerm_of_not_table {F : Type} (rt : Runtime F) (laws : ScoringLaws rt) (n : Nat)
    (hn : 0 < n) (bc : Nat × Nat) (h : isTableByte bc.1 = false) :
    scoreTerm rt n bc = rt.zero := by
  unfold scoreTerm
  rw [FrequencyTable_of_not_table rt bc.1 h, laws.mul_zero, laws.div_zero n hn, laws.sqrt_zero]

/-- Leaving out terms that are zero does not change the sum. -/
theorem foldl_terms_filter {F : Type} (rt : Runtime F) (laws : ScoringLaws rt) (n : Nat)
    (p : Nat × Nat → Bool) :
    ∀ (l : List (Nat × Nat)) (init : F),
      (∀ bc, bc ∈ l → p bc = false → scoreTerm rt n bc = rt.zero) →
      l.foldl (fun score bc => rt.add score (scoreTerm rt n bc)) init
        = (l.filter p).foldl (fun score bc => rt.add score (scoreTerm rt n bc)) init := by
  intro l
  induction l with
  | nil => intro init _; rfl
  | cons x l ih =>
    intro init h
    have htail := fun bc hbc => h bc (List.mem_cons_of_mem x hbc)
    cases hp : p x with
    | true =>
      rw [List.filter_cons_of_pos hp, List.foldl_cons, List.foldl_cons]
      exact ih _ htail
    | false =>
      rw [List.filter_cons_of_neg (by simp [hp]), List.foldl_cons,
        h x (List.mem_cons_self x l) hp, laws.add_zero]
      exact ih _ htail

/-- The entries that the loop visits when the data is empty: none. -/
theorem entries_of_nil {F : Type} (rt : Runtime F) (laws : ScoringLaws rt) :
    rt.mapRange (countBytes (rt.toLower [])) = [] := by
  rw [laws.toLower_nil]
  exact (laws.mapRange_perm []).eq_nil

/-- The score is the sum of the terms of the table bytes. -/
theorem getEnglishScore_eq_tableScore {F : Type} (rt : Runtime F) (laws : ScoringLaws rt)
    (data : List Nat) : getEnglishScore rt data = tableScore rt data := by
  rw [getEnglishScore_eq_terms]
  unfold tableScore tableEntries
  cases data with
  | nil =>
    rw [entries_of_nil rt laws]
    rfl
  | cons d ds =>
    exact foldl_terms_filter rt laws _ _ _ _
      (fun bc _ h => scoreTerm_of_not_table rt laws _ (by simp) bc h)

/-- The table entries: the table bytes of the lower-cased data, each once,
with its number of occurrences. -/
theorem tableEntries_spec {F : Type} (rt : Runtime F) (laws : ScoringLaws rt)
    (data : List Nat) :
    ((tableEntries rt data).map Prod.fst).Nodup
      ∧ ∀ b c, (b, c) ∈ tableEntries rt data
          ↔ (isTableByte b = true ∧ b ∈ rt.toLower data ∧ c = (rt.toLower data).count b) := by
  obtain ⟨h1, h2, h3⟩ := countBytes_spec (rt.toLower data)
  have hperm := laws.mapRange_perm (countBytes (rt.toLower data))
  constructor
  · have hsub : List.Sublist ((tableEntries rt data).map Prod.fst)
        ((rt.mapRange (countBytes (rt.toLower data))).map Prod.fst) :=
      (List.filter_sublist _).map _
    exact List.Nodup.sublist hsub ((hperm.map _).nodup_iff.mpr h1)
  · intro b c
    unfold tableEntries
    rw [List.mem_filter]
    constructor
    · rintro ⟨hmem, htab⟩
      have := h2 (b, c) (hperm.subset hmem)
      exact ⟨htab, this.1, this.2⟩
    · rintro ⟨htab, hb, hc⟩
      obtain ⟨e, he, heb⟩ := h3 b hb
      have hec := (h2 e he).2
      have : e = (b, c) := by
        rw [heb] at hec
        exact Prod.ext heb (by rw [hec, hc])
      exact ⟨hperm.symm.subset (this ▸ he), htab⟩

/-- C18. With the `float64` facts `0 * c = 0`, `0 / n = 0`, `sqrt 0 = 0` and
`x + 0 = x`: for every non-empty byte sequence none of whose lower-cased
bytes is a key of `FrequencyTable`, `getEnglishScore` returns exactly zero;
and for every byte sequence, leaving out of the sum every byte without a
table entry does not change the score, so that the score is the sum, over
the table bytes `b` present in the lower-cased input (each once, with
`count[b]` its number of occurrences), of
`sqrt(FrequencyTable[b] * count[b] / len(input))`. The table bytes are the
space and the 26 lower-case letters. -/
theorem absent_bytes_contribute_zero {F : Type} (rt : Runtime F) (laws : ScoringLaws rt)
    (data : List Nat) :
    (data ≠ [] → (∀ b, b ∈ rt.toLower data → isTableByte b = false) →
        getEnglishScore rt data = rt.zero)
      ∧ getEnglishScore rt data
          = (tableEntries rt data).foldl
              (fun score bc =>
                rt.add score
                  (rt.sqrt (rt.div (rt.mul (FrequencyTable rt bc.1) (rt.ofInt bc.2))
                    (rt.ofInt data.length))))
              rt.zero
      ∧ ((tableEntries rt data).map Prod.fst).Nodup
      ∧ (∀ b c, (b, c) ∈ tableEntries rt data
          ↔ (isTableByte b = true ∧ b ∈ rt.toLower data ∧ c = (rt.toLower data).count b))
      ∧ (∀ b, isTableByte b = true ↔ (b = 32 ∨ (97 ≤ b ∧ b ≤ 122)))
      ∧ (∀ b, isTableByte b = false → FrequencyTable rt b = rt.zero) := by
  obtain ⟨hnodup, hspec⟩ := tableEntries_spec rt laws data
  refine ⟨?_, getEnglishScore_eq_tableScore rt laws data, hnodup, hspec, isTableByte_iff,
    FrequencyTable_of_not_table rt⟩
  intro _ hnone
  rw [getEnglishScore_eq_tableScore rt laws data]
  have hnil : tableEntries rt data = [] := by
    apply List.eq_nil_iff_forall_not_mem.mpr
    intro bc hbc
    have := (hspec bc.1 bc.2).mp hbc
    rw [hnone bc.1 this.2.1] at this
    simp at this
  unfold tableScore
  rw [hnil]
  rfl

/-- The stable runtime keeps the scoring laws. -/
theorem stableRuntime_laws : ScoringLaws stableRuntime where
  mul_zero := fun c => Nat.zero_mul c
  div_zero := fun n _ => Nat.zero_div n
  sqrt_zero := Nat.sqrt_zero
  add_zero := fun x => Nat.add_zero x
  toLower_nil := rfl
  mapRange_perm := fun m => List.Perm.refl m

/-- Witness of C18: the stable runtime on the bytes of `"a1 A"`. -/
theorem absent_bytes_contribute_zero_witness :
    ScoringLaws stableRuntime
    ∧ ((([0x61, 0x31, 0x20, 0x41] : List Nat) ≠ [] →
        (∀ b, b ∈ stableRuntime.toLower [0x61, 0x31, 0x20, 0x41] → isTableByte b = false) →
        getEnglishScore stableRuntime [0x61, 0x31, 0x20, 0x41] = stableRuntime.zero)
      ∧ getEnglishScore stableRuntime [0x61, 0x31, 0x20, 0x41]
          = (tableEntries stableRuntime [0x61, 0x31, 0x20, 0x41]).foldl
              (fun score bc =>
                stableRuntime.add score
                  (stableRuntime.sqrt
                    (stableRuntime.div
                      (stableRuntime.mul (FrequencyTable stableRuntime bc.1)
                        (stableRuntime.ofInt bc.2))
                      (stableRuntime.ofInt [0x61, 0x31, 0x20, 0x41].length))))
              stableRuntime.zero
      ∧ ((tableEntries stableRuntime [0x61, 0x31, 0x20, 0x41]).map Prod.fst).Nodup
      ∧ (∀ b c, (b, c) ∈ tableEntries stableRuntime [0x61, 0x31, 0x20, 0x41]
          ↔ (isTableByte b = true ∧ b ∈ stableRuntime.toLower [0x61, 0x31, 0x20, 0x41]
            ∧ c = (stableRuntime.toLower [0x61, 0x31, 0x20, 0x41]).count b))
      ∧ (∀ b, isTableByte b = true ↔ (b = 32 ∨ (97 ≤ b ∧ b ≤ 122)))
      ∧ (∀ b, isTableByte b = false → FrequencyTable stableRuntime b = stableRuntime.zero)) :=
  ⟨stableRuntime_laws,
    absent_bytes_contribute_zero stableRuntime stableRuntime_laws [0x61, 0x31, 0x20, 0x41]⟩

end Cryptopals
